import Mathlib

/-!
Verification development for the genealogy-analyzer application
(`src/App.jsx`).  The core engine — graph index builder, BFS ancestor
distance search, LCA resolver, relationship classifier, text
normalizer, phrase parser and graph synthesizer — is shallowly embedded
below as executable Lean functions, translated line by line from the
JavaScript source.

Modelling conventions:
* JavaScript plain objects used as string-keyed dictionaries are
  embedded as insertion-ordered association lists (`JsMap`) with unique
  keys; assignment replaces in place, new keys are appended, and
  `jsKeys` reproduces the JS own-property enumeration order (canonical
  array-index keys in ascending numeric order first, then the remaining
  string keys in insertion order).
* JS `while` loops are embedded as fuel-indexed structural recursions;
  for the BFS loop the fuel passed by `getAncestors` is proved below to
  dominate the loop's termination measure, so the embedded function
  computes exactly the loop's result.
* The global id counter behind `genId` is threaded explicitly.
-/

inductive Sex where
  | male : Sex
  | female : Sex
  | unknown : Sex
deriving DecidableEq, Repr

structure Person where
  id : String
  name : String
  sex : Sex
  note : Option String
deriving DecidableEq, Repr

structure ParentEdge where
  parentId : String
  childId : String
deriving DecidableEq, Repr

/-- Insertion-ordered association list standing for a JS object used as
a dictionary with string keys. -/
abbrev JsMap (β : Type) : Type := List (String × β)

/-- Property read `m[k]`. -/
def jget {β : Type} : JsMap β → String → Option β
  | [], _ => none
  | kv :: t, k => if kv.1 = k then some kv.2 else jget t k

/-- Property write `m[k] = v`: replaces the value at an existing key in
place, appends a fresh binding otherwise. -/
def jset {β : Type} : JsMap β → String → β → JsMap β
  | [], k, v => [(k, v)]
  | kv :: t, k, v => if kv.1 = k then (k, v) :: t else kv :: jset t k v

/-- The JS `k in m` test. -/
def jHasKey {β : Type} : JsMap β → String → Bool
  | [], _ => false
  | kv :: t, k => kv.1 == k || jHasKey t k

theorem jget_eq_some_mem {β : Type} {m : JsMap β} {k : String} {v : β}
    (h : jget m k = some v) : (k, v) ∈ m := by
  induction m with
  | nil => simp [jget] at h
  | cons kv t ih =>
    rw [jget] at h
    by_cases hk : kv.1 = k
    · rw [if_pos hk] at h
      cases kv with
      | mk a b =>
        simp only [Option.some.injEq] at h
        simp at hk
        subst hk; subst h
        exact List.mem_cons_self _ _
    · rw [if_neg hk] at h
      exact List.mem_cons_of_mem _ (ih h)

theorem jget_jset_self {β : Type} (m : JsMap β) (k : String) (v : β) :
    jget (jset m k v) k = some v := by
  induction m with
  | nil => simp [jget, jset]
  | cons kv t ih =>
    rw [jset]
    by_cases hk : kv.1 = k
    · rw [if_pos hk, jget, if_pos rfl]
    · rw [if_neg hk, jget, if_neg hk]; exact ih

theorem jget_jset_ne {β : Type} (m : JsMap β) (k k' : String) (v : β)
    (h : k' ≠ k) : jget (jset m k v) k' = jget m k' := by
  induction m with
  | nil =>
    have h1 : ¬ (k = k') := fun hc => h hc.symm
    simp [jget, jset, h1]
  | cons kv t ih =>
    rw [jset]
    by_cases hk : kv.1 = k
    · rw [if_pos hk, jget, jget]
      have h1 : ¬ (k = k') := fun hc => h hc.symm
      have h2 : ¬ (kv.1 = k') := by rw [hk]; exact h1
      rw [if_neg h1, if_neg h2]
    · rw [if_neg hk, jget, jget]
      by_cases hh : kv.1 = k'
      · rw [if_pos hh, if_pos hh]
      · rw [if_neg hh, if_neg hh]; exact ih

theorem jHasKey_iff_jget_isSome {β : Type} (m : JsMap β) (k : String) :
    jHasKey m k = true ↔ (jget m k).isSome = true := by
  induction m with
  | nil => simp [jHasKey, jget]
  | cons kv t ih =>
    rw [jHasKey, jget]
    by_cases hk : kv.1 = k
    · simp [hk]
    · simp only [hk, if_false, beq_iff_eq, Bool.or_eq_true]
      simp [hk, ih]

theorem jget_none_of_not_hasKey {β : Type} {m : JsMap β} {k : String}
    (h : ¬ jHasKey m k = true) : jget m k = none := by
  cases hg : jget m k with
  | none => rfl
  | some v =>
    exact absurd ((jHasKey_iff_jget_isSome m k).mpr (by rw [hg]; rfl)) h

theorem jHasKey_of_jget_eq_some {β : Type} {m : JsMap β} {k : String} {v : β}
    (h : jget m k = some v) : jHasKey m k = true :=
  (jHasKey_iff_jget_isSome m k).mpr (by rw [h]; rfl)

/-! ### JS own-property enumeration order

`Object.keys` lists canonical array-index keys in ascending numeric
order first, then the remaining string keys in insertion order.  A key
is a canonical array index when it is the canonical decimal rendering
of a natural number below 2^32 - 1. -/

def isDigitChar (c : Char) : Bool := decide ('0' ≤ c ∧ c ≤ '9')

def digitsVal (l : List Char) : Nat :=
  l.foldl (fun n c => n * 10 + (c.toNat - 48)) 0

def arrayIdx (s : String) : Option Nat :=
  if s.data ≠ [] ∧ s.data.all isDigitChar ∧
      (s.data.head? ≠ some '0' ∨ s.data = ['0']) then
    if digitsVal s.data < 4294967295 then some (digitsVal s.data) else none
  else none

def insertAsc (key : String → Nat) (x : String) : List String → List String
  | [] => [x]
  | y :: t => if key x ≤ key y then x :: y :: t else y :: insertAsc key x t

def sortAsc (key : String → Nat) (l : List String) : List String :=
  l.foldr (insertAsc key) []

def jsKeys {β : Type} (m : JsMap β) : List String :=
  let ks := m.map (fun kv => kv.1)
  sortAsc (fun k => (arrayIdx k).getD 0) (ks.filter (fun k => (arrayIdx k).isSome))
    ++ ks.filter (fun k => (arrayIdx k).isNone)

theorem mem_insertAsc {key : String → Nat} {x a : String} {l : List String} :
    a ∈ insertAsc key x l ↔ a = x ∨ a ∈ l := by
  induction l with
  | nil => simp [insertAsc]
  | cons y t ih =>
    rw [insertAsc]
    by_cases h : key x ≤ key y
    · simp [h]
    · simp only [h, if_false, List.mem_cons, ih]
      tauto

theorem mem_sortAsc {key : String → Nat} {a : String} {l : List String} :
    a ∈ sortAsc key l ↔ a ∈ l := by
  induction l with
  | nil => simp [sortAsc]
  | cons y t ih =>
    rw [sortAsc, List.foldr] at *
    rw [mem_insertAsc, ih]
    simp

theorem mem_jsKeys {β : Type} {m : JsMap β} {a : String} :
    a ∈ jsKeys m ↔ a ∈ m.map (fun kv => kv.1) := by
  unfold jsKeys
  rw [List.mem_append, mem_sortAsc]
  constructor
  · rintro (h | h) <;> exact (List.mem_filter.mp h).1
  · intro h
    by_cases hi : (arrayIdx a).isSome
    · exact Or.inl (List.mem_filter.mpr ⟨h, by simpa using hi⟩)
    · refine Or.inr (List.mem_filter.mpr ⟨h, ?_⟩)
      simp only [Option.isNone_iff_eq_none]
      cases hx : arrayIdx a with
      | none => rfl
      | some n => rw [hx] at hi; simp at hi

theorem jHasKey_iff_mem_keys {β : Type} (m : JsMap β) (k : String) :
    jHasKey m k = true ↔ k ∈ m.map (fun kv => kv.1) := by
  induction m with
  | nil => simp [jHasKey]
  | cons kv t ih =>
    rw [jHasKey]
    simp only [List.map_cons, List.mem_cons, Bool.or_eq_true, beq_iff_eq]
    rw [ih]
    constructor
    · rintro (h | h)
      · exact Or.inl h.symm
      · exact Or.inr h
    · rintro (h | h)
      · exact Or.inl h.symm
      · exact Or.inr h

/-! ### Graph index builder (`buildIndexes`) -/

structure Indexes where
  byId : JsMap Person
  parentsOf : JsMap (List String)
  childrenOf : JsMap (List String)

def buildIndexes (people : List Person) (edges : List ParentEdge) : Indexes :=
  let byId := people.foldl (fun m p => jset m p.id p) []
  let base : JsMap (List String) := people.foldl (fun m p => jset m p.id []) []
  let parentsOf := edges.foldl (fun m e =>
    let m1 := if jHasKey m e.childId then m else jset m e.childId []
    jset m1 e.childId ((jget m1 e.childId).getD [] ++ [e.parentId])) base
  let childrenOf := edges.foldl (fun m e =>
    let m1 := if jHasKey m e.parentId then m else jset m e.parentId []
    jset m1 e.parentId ((jget m1 e.parentId).getD [] ++ [e.childId])) base
  ⟨byId, parentsOf, childrenOf⟩

/-- `parentsOf[cur] || []`. -/
def parentsList (pf : JsMap (List String)) (v : String) : List String :=
  (jget pf v).getD []

/-- All ids occurring in the values of a `parentsOf` map: a finite
universe containing every id the BFS can ever discover. -/
def univOf (pf : JsMap (List String)) : List String :=
  (pf.map (fun kv => kv.2)).flatten

theorem mem_univOf_of_mem_parentsList {pf : JsMap (List String)}
    {v p : String} (h : p ∈ parentsList pf v) : p ∈ univOf pf := by
  unfold parentsList at h
  cases hg : jget pf v with
  | none => rw [hg] at h; simp at h
  | some l =>
    rw [hg] at h
    simp only [Option.getD_some] at h
    have hm : (v, l) ∈ pf := jget_eq_some_mem hg
    unfold univOf
    rw [List.mem_flatten]
    exact ⟨l, List.mem_map.mpr ⟨(v, l), hm, rfl⟩, h⟩

/-! ### Ancestor distance search (`getAncestors`)

Faithful embedding of the queue-based BFS: the outer `while` loop pops
the queue head, the inner `for` loop (`stepParents`) walks the parents
of the popped node, recording first-discovery depths.  The `while` loop
is fuel-indexed; `getAncestors` passes fuel that is proved below to
dominate the loop's termination measure. -/

def stepParents (d : Nat) :
    List String → JsMap Nat → List String →
    JsMap Nat × List String × List (String × Nat)
  | [], depths, seen => (depths, seen, [])
  | p :: ps, depths, seen =>
    if p ∈ seen then stepParents d ps depths seen
    else
      let nv : Nat :=
        match jget depths p with
        | some v => if v < d + 1 then v else d + 1
        | none => d + 1
      let r := stepParents d ps (jset depths p nv) (p :: seen)
      (r.1, r.2.1, (p, d + 1) :: r.2.2)

def bfsLoop (pf : JsMap (List String)) :
    Nat → List (String × Nat) → List String → JsMap Nat → JsMap Nat
  | 0, _, _, depths => depths
  | _ + 1, [], _, depths => depths
  | fuel + 1, (cur, d) :: rest, seen, depths =>
    let r := stepParents d (parentsList pf cur) depths seen
    bfsLoop pf fuel (rest ++ r.2.2) r.2.1 r.1

def getAncestors (id : String) (pf : JsMap (List String)) : JsMap Nat :=
  bfsLoop pf ((univOf pf).length + 1) [(id, 0)] [id] []

/-! ### LCA resolver (`findLCA`) and ancestor test (`isAncestorOf`) -/

structure LCAResult where
  id : String
  dA : Nat
  dB : Nat
deriving DecidableEq, Repr

def findLCA (a b : String) (pf : JsMap (List String)) : Option LCAResult :=
  let A := getAncestors a pf
  let B := getAncestors b pf
  (jsKeys A).foldl (fun best id =>
    if jHasKey B id then
      let dA := (jget A id).getD 0
      let dB := (jget B id).getD 0
      match best with
      | none => some ⟨id, dA, dB⟩
      | some bst =>
        if dA + dB < bst.dA + bst.dB ∨
            (dA + dB = bst.dA + bst.dB ∧ max dA dB < max bst.dA bst.dB) then
          some ⟨id, dA, dB⟩
        else some bst
    else best) none

/-- `a in ancestors ? ancestors[a] : -1`. -/
def isAncestorOf (a b : String) (pf : JsMap (List String)) : Int :=
  match jget (getAncestors b pf) a with
  | some d => (d : Int)
  | none => -1

/-! ### Evidence path reconstruction (`pathToAncestor`)

Fuel-indexed like the BFS; the fuel passed below dominates the number
of loop iterations of the JS original (each iteration either consumes a
layer element — and every id enters a layer at most once — or switches
to a nonempty next layer), and no theorem below depends on the
reconstruction beyond its syntactic form. -/

def reconPath (prev : JsMap String) (fromId : String) :
    Nat → String → List String
  | 0, _ => []
  | fuel + 1, u =>
    if u = "" ∨ u = fromId then []
    else
      u :: (match jget prev u with
        | some u2 => reconPath prev fromId fuel u2
        | none => [])

def expandPta (v : String) :
    List String → List String → JsMap String → List String →
    List String × JsMap String × List String
  | [], seen, prev, next => (seen, prev, next)
  | p :: ps, seen, prev, next =>
    if p ∈ seen then expandPta v ps seen prev next
    else expandPta v ps (p :: seen) (jset prev p v) (next ++ [p])

def ptaGo (pf : JsMap (List String)) (fromId anc : String) :
    Nat → List String → List String → List String → JsMap String →
    List String
  | 0, _, _, _, _ => [fromId]
  | fuel + 1, [], nextAcc, seen, prev =>
    if nextAcc = [] then [fromId]
    else ptaGo pf fromId anc fuel nextAcc [] seen prev
  | fuel + 1, v :: vs, nextAcc, seen, prev =>
    if v = anc then fromId :: (reconPath prev fromId (prev.length + 1) v).reverse
    else
      let r := expandPta v (parentsList pf v) seen prev nextAcc
      ptaGo pf fromId anc fuel vs r.2.2 r.1 r.2.1

def pathToAncestor (fromId anc : String) (pf : JsMap (List String)) :
    List String :=
  ptaGo pf fromId anc (2 * (univOf pf).length + 4) [fromId] [] [fromId] []

/-! ### Relationship classifier (`relationLabel`) and its helpers -/

def describeLine (byId : JsMap Person) (path : List String) : String :=
  match path.get? 1 with
  | none => ""
  | some pid =>
    match jget byId pid with
    | none => ""
    | some firstParent =>
      match firstParent.sex with
      | Sex.female => "по материнской линии"
      | Sex.male => "по отцовской линии"
      | Sex.unknown => ""

def sexNoun (sex : Sex) (m f neutral : String) : String :=
  match sex with
  | Sex.female => f
  | Sex.male => m
  | Sex.unknown => neutral

def cousinDegreeWord (n : Nat) : String :=
  if n = 0 then ""
  else if n = 1 then "двоюродн"
  else if n = 2 then "троюродн"
  else if n = 3 then "четвероюродн"
  else if n = 4 then "пятоюродн"
  else toString n ++ "-юродн"

def describeAncestor (d : Int) (sex : Sex) : String :=
  if d = 1 then sexNoun sex "отец" "мать" "родитель"
  else if d = 2 then sexNoun sex "дед" "бабушка" "предок"
  else if d = 3 then sexNoun sex "прадед" "прабабушка" "предок в 3-м колене"
  else "предок в " ++ toString d ++ "-м колене"

def describeDescendant (d : Int) (sex : Sex) : String :=
  if d = 1 then sexNoun sex "сын" "дочь" "ребёнок"
  else if d = 2 then sexNoun sex "внук" "внучка" "потомок"
  else if d = 3 then sexNoun sex "правнук" "правнучка" "потомок в 3-м колене"
  else "потомок в " ++ toString d ++ "-м колене"

structure RelResult where
  title : String
  details : List String
  reverseTitle : String
deriving DecidableEq, Repr

/-- `byId[i]?.name` inside `Array.prototype.join`, where `undefined`
joins as the empty string. -/
def nameInJoin (byId : JsMap Person) (i : String) : String :=
  match jget byId i with
  | some p => p.name
  | none => ""

/-- `` `Общий предок: ${byId[anc]?.name}` `` — inside a template
literal `undefined` renders as the string `"undefined"`. -/
def ancNameById (byId : JsMap Person) (anc : String) : String :=
  match jget byId anc with
  | some p => p.name
  | none => "undefined"

/-- `` `Общий предок: ${people.find((p) => p.id === anc)?.name}` ``. -/
def ancNameFind (people : List Person) (anc : String) : String :=
  match people.find? (fun p => p.id = anc) with
  | some p => p.name
  | none => "undefined"

def relationLabel (fromId toId : String) (people : List Person)
    (edges : List ParentEdge) : RelResult :=
  let idx := buildIndexes people edges
  let byId := idx.byId
  let pf := idx.parentsOf
  match jget byId fromId, jget byId toId with
  | some A, some B =>
    let up := isAncestorOf fromId toId pf
    let down := isAncestorOf toId fromId pf
    if 1 ≤ up then
      let path := pathToAncestor toId fromId pf
      let line := describeLine byId path
      let t := describeAncestor up A.sex
      let title := if line = "" then t else t ++ " (" ++ line ++ ")"
      let reverse := describeDescendant up B.sex
      let revTitle := if line = "" then reverse else reverse ++ " (" ++ line ++ ")"
      ⟨title,
        ["Общий путь: " ++ String.intercalate " → " (path.map (nameInJoin byId))],
        revTitle⟩
    else if 1 ≤ down then
      let path := pathToAncestor fromId toId pf
      let line := describeLine byId path
      let t := describeDescendant down A.sex
      let title := if line = "" then t else t ++ " (" ++ line ++ ")"
      let reverse := describeAncestor down B.sex
      let revTitle := if line = "" then reverse else reverse ++ " (" ++ line ++ ")"
      ⟨title,
        ["Общий путь: " ++ String.intercalate " → " (path.map (nameInJoin byId))],
        revTitle⟩
    else
      match findLCA fromId toId pf with
      | none => ⟨"Связь не найдена", [], "Связь не найдена"⟩
      | some lca =>
        let anc := lca.id
        let k := lca.dA
        let l := lca.dB
        if k = 1 ∧ l = 1 then
          let title := sexNoun B.sex "брат" "сестра" "сиблинг"
          let rev := sexNoun A.sex "брат" "сестра" "сиблинг"
          let pathA := pathToAncestor fromId anc pf
          let pathB := pathToAncestor toId anc pf
          let lineA := describeLine byId pathA
          let lineB := describeLine byId pathB
          ⟨title,
            ["Общий предок: " ++ ancNameById byId anc,
             "Линии: " ++ (if lineA = "" then "—" else lineA) ++ " / " ++
               (if lineB = "" then "—" else lineB)],
            rev⟩
        else if min k l = 1 then
          let olderIsA := k = 1
          let degree := max k l - 1
          if degree = 1 then
            if olderIsA then
              ⟨sexNoun A.sex "дядя" "тётя" "тётя/дядя",
                ["Общий предок: " ++ ancNameById byId anc],
                sexNoun B.sex "племянник" "племянница" "племянник/племянница"⟩
            else
              ⟨sexNoun A.sex "племянник" "племянница" "племянник/племянница",
                ["Общий предок: " ++ ancNameById byId anc],
                sexNoun B.sex "дядя" "тётя" "тётя/дядя"⟩
          else
            if olderIsA then
              let base :=
                if degree = 2 then
                  sexNoun A.sex "двоюродный дед" "двоюродная бабушка" "двоюродный предок"
                else if degree = 3 then
                  sexNoun A.sex "троюродный дед" "троюродная бабушка" "троюродный предок"
                else "предок (удаление " ++ toString (degree - 1) ++ ")"
              let reverseTitle :=
                if degree = 2 then
                  sexNoun B.sex "двоюродный внук" "двоюродная внучка" "двоюродный потомок"
                else if degree = 3 then
                  sexNoun B.sex "троюродный внук" "троюродная внучка" "троюродный потомок"
                else "потомок (удаление " ++ toString (degree - 1) ++ ")"
              ⟨base, ["Общий предок: " ++ ancNameById byId anc], reverseTitle⟩
            else
              let base :=
                if degree = 2 then
                  sexNoun A.sex "двоюродный внук" "двоюродная внучка" "двоюродный потомок"
                else if degree = 3 then
                  sexNoun A.sex "троюродный внук" "троюродная внучка" "троюродный потомок"
                else "потомок (удаление " ++ toString (degree - 1) ++ ")"
              let reverseTitle :=
                if degree = 2 then
                  sexNoun B.sex "двоюродный дед" "двоюродная бабушка" "двоюродный предок"
                else if degree = 3 then
                  sexNoun B.sex "троюродный дед" "троюродная бабушка" "троюродный предок"
                else "предок (удаление " ++ toString (degree - 1) ++ ")"
              ⟨base, ["Общий предок: " ++ ancNameById byId anc], reverseTitle⟩
        else
          let degree := min k l - 1
          let removal := max k l - min k l
          let base := cousinDegreeWord degree
          if removal = 0 then
            let title :=
              if base = "" then "родственники"
              else sexNoun B.sex (base ++ "ый брат") (base ++ "ая сестра")
                (base ++ "ые родственники")
            let reverseTitle :=
              if base = "" then "родственники"
              else sexNoun A.sex (base ++ "ый брат") (base ++ "ая сестра")
                (base ++ "ые родственники")
            ⟨title, ["Общий предок: " ++ ancNameFind people anc], reverseTitle⟩
          else if removal = 1 then
            let olderIsA := k < l
            let labelOlder := base ++ "ый " ++
              sexNoun (if olderIsA then A.sex else B.sex) "дядя" "тётя" "дядя/тётя"
            let labelYounger := base ++ "ая " ++
              sexNoun (if olderIsA then B.sex else A.sex) "племянник" "племянница"
                "племянник/племянница"
            if olderIsA then
              ⟨labelOlder, ["Общий предок: " ++ ancNameFind people anc], labelYounger⟩
            else
              ⟨labelYounger, ["Общий предок: " ++ ancNameFind people anc], labelOlder⟩
          else
            let olderIsA := k < l
            let title :=
              if olderIsA then
                base ++ "ый " ++ sexNoun A.sex "дядя" "тётя" "дядя/тётя" ++
                  " (удаление " ++ toString removal ++ ")"
              else
                base ++ "ая " ++ sexNoun A.sex "племянник" "племянница"
                  "племянник/племянница" ++ " (удаление " ++ toString removal ++ ")"
            let reverseTitle :=
              if olderIsA then
                base ++ "ая " ++ sexNoun B.sex "племянник" "племянница"
                  "племянник/племянница" ++ " (удаление " ++ toString removal ++ ")"
              else
                base ++ "ый " ++ sexNoun B.sex "дядя" "тётя" "дядя/тётя" ++
                  " (удаление " ++ toString removal ++ ")"
            ⟨title, ["Общий предок: " ++ ancNameFind people anc], reverseTitle⟩
  | _, _ => ⟨"—", [], "—"⟩

/-! ### Text normalization (`normalizeText`)

Character-wise model of the JS pipeline.  `jsLowerChar` covers
`String.prototype.toLowerCase` on the Basic Latin and Cyrillic letters
the grammar can mention (every other character is left unchanged — any
such character is replaced by a space by the punctuation strip in the
next stages either way). -/

def jsLowerChar (c : Char) : Char :=
  if 65 ≤ c.toNat ∧ c.toNat ≤ 90 then Char.ofNat (c.toNat + 32)
  else if 1040 ≤ c.toNat ∧ c.toNat ≤ 1071 then Char.ofNat (c.toNat + 32)
  else if c.toNat = 1025 then 'ё'
  else c

/-- The JS regex `\s` character class (ECMA-262 WhiteSpace and
LineTerminator). -/
def jsSpace (c : Char) : Bool :=
  decide (c.toNat = 32 ∨ c.toNat = 9 ∨ c.toNat = 10 ∨ c.toNat = 11 ∨
    c.toNat = 12 ∨ c.toNat = 13 ∨ c.toNat = 160 ∨ c.toNat = 5760 ∨
    (8192 ≤ c.toNat ∧ c.toNat ≤ 8202) ∨ c.toNat = 8232 ∨
    c.toNat = 8233 ∨ c.toNat = 8239 ∨ c.toNat = 8287 ∨
    c.toNat = 12288 ∨ c.toNat = 65279)

/-- The character class `[a-zа-я0-9\s]` kept by the punctuation strip
(note `ё` lies outside `а-я`). -/
def goodChar (c : Char) : Bool :=
  decide ((97 ≤ c.toNat ∧ c.toNat ≤ 122) ∨ (1072 ≤ c.toNat ∧ c.toNat ≤ 1103) ∨
    (48 ≤ c.toNat ∧ c.toNat ≤ 57))

def keptChar (c : Char) : Bool := goodChar c || jsSpace c

/-- `.replace(/\s+/g, " ")`: each maximal whitespace run becomes one
space.  The flag records whether the previous character belonged to a
run whose space was already emitted. -/
def collapseWsGo : Bool → List Char → List Char
  | _, [] => []
  | inRun, c :: cs =>
    if jsSpace c then
      if inRun then collapseWsGo true cs else ' ' :: collapseWsGo true cs
    else c :: collapseWsGo false cs

def collapseWs (l : List Char) : List Char := collapseWsGo false l

/-- `.trim()`. -/
def trimWs (l : List Char) : List Char :=
  ((l.dropWhile jsSpace).reverse.dropWhile jsSpace).reverse

def normalizeTextL (l : List Char) : List Char :=
  let l1 := l.map jsLowerChar
  let l2 := l1.map (fun c => if c = 'ё' then 'е' else c)
  let l3 := l2.map (fun c => if c = '–' ∨ c = '—' ∨ c = '-' then ' ' else c)
  let l4 := l3.map (fun c => if keptChar c then c else ' ')
  trimWs (collapseWs l4)

def normalizeText (s : String) : String := ⟨normalizeTextL s.data⟩

/-- `norm.split(" ")`. -/
def splitSp : List Char → List Char → List (List Char)
  | [], acc => [acc.reverse]
  | c :: cs, acc => if c = ' ' then acc.reverse :: splitSp cs [] else splitSp cs (c :: acc)

/-- `normalizeText(s).split(" ").filter(Boolean)`. -/
def tokensOfNorm (norm : String) : List String :=
  ((splitSp norm.data []).map (fun l => String.mk l)).filter (fun t => t != "")

/-! ### Phrase grammar parser -/

def PRONOUN : List String := ["его", "ее", "её"]
def FILLERS : List String := ["это", "есть", "является", "явл"]
def SIBLING_WORDS : List String := ["сестра", "брат"]
def RANK_WORDS : List String := ["младшая", "старшая", "младший", "старший"]
def motherWords : List String := ["мать", "мама"]
def fatherWords : List String := ["отец", "папа"]

/-- `/^дед/.test(w) || /^дедушк/.test(w)`. -/
def isGrandfatherWord (w : String) : Bool :=
  ("дед".data.isPrefixOf w.data) || ("дедушк".data.isPrefixOf w.data)

/-- `/^баб/.test(w)`. -/
def isGrandmotherWord (w : String) : Bool :=
  "баб".data.isPrefixOf w.data

inductive LineSide where
  | maternal : LineSide
  | paternal : LineSide
deriving DecidableEq, Repr

structure TakeLineResult where
  side : Option LineSide
  next : Nat
deriving DecidableEq, Repr

def takeLine (tokens : List String) (i : Nat) : TakeLineResult :=
  if tokens.get? i = some "по" ∧
      (tokens.get? (i + 1) = some "материнской" ∨
        tokens.get? (i + 1) = some "отцовской") ∧
      tokens.get? (i + 2) = some "линии" then
    ⟨some (if tokens.get? (i + 1) = some "материнской" then LineSide.maternal
      else LineSide.paternal), i + 3⟩
  else ⟨none, i⟩

inductive Base where
  | he : Base
  | she : Base
deriving DecidableEq, Repr

inductive Step where
  | mother : Step
  | father : Step
deriving DecidableEq, Repr

structure RelSpec where
  base : Base
  steps : List Step
  terminalLabel : String
  terminalSex : Sex
  note : String
  next : Nat
deriving DecidableEq, Repr

def lineClauseError : String :=
  "Уточните линию: «по материнской линии» или «по отцовской линии» для «дед/бабушка»"

def parseRelativeSpec (tokens : List String) (i0 : Nat) : Except String RelSpec :=
  match tokens.get? i0 with
  | none => Except.error "Ожидали «его/ее»"
  | some pron =>
    if pron ∈ PRONOUN then
      let base := if pron = "его" then Base.he else Base.she
      match tokens.get? (i0 + 1) with
      | none => Except.error "Ожидали термин родства после «его/ее»"
      | some w =>
        if w ∈ motherWords then
          Except.ok ⟨base, [Step.mother],
            (if base = Base.he then "Его мать" else "Её мать"), Sex.female, "", i0 + 2⟩
        else if w ∈ fatherWords then
          Except.ok ⟨base, [Step.father],
            (if base = Base.he then "Его отец" else "Её отец"), Sex.male, "", i0 + 2⟩
        else if isGrandfatherWord w || isGrandmotherWord w then
          let gf := isGrandfatherWord w
          let tl := takeLine tokens (i0 + 2)
          match tl.side with
          | none => Except.error lineClauseError
          | some side =>
            let steps :=
              if side = LineSide.maternal then
                [Step.mother, if gf then Step.father else Step.mother]
              else
                [Step.father, if gf then Step.father else Step.mother]
            let terminalSex := if gf then Sex.male else Sex.female
            let lineText :=
              if side = LineSide.maternal then "по материнской линии"
              else "по отцовской линии"
            let baseWord := if gf then "дед" else "бабушка"
            let terminalLabel :=
              (if base = Base.he then "Его " else "Её ") ++ baseWord ++
                " (" ++ lineText ++ ")"
            Except.ok ⟨base, steps, terminalLabel, terminalSex, "", tl.next⟩
        else Except.error ("Неизвестный термин родства: " ++ w)
    else Except.error "Ожидали «его/ее»"

structure Connector where
  kind : String
  rank : Option String
  next : Nat
deriving DecidableEq, Repr

def skipFillers (tokens : List String) : Nat → Nat → Nat
  | 0, i => i
  | fuel + 1, i =>
    match tokens.get? i with
    | some t =>
      if t ∈ FILLERS ∨ t = "—" ∨ t = "-" then skipFillers tokens fuel (i + 1)
      else i
    | none => i

def parseSiblingConnector (tokens : List String) (i0 : Nat) :
    Except String Connector :=
  let i1 := skipFillers tokens tokens.length i0
  let ranked : Option String × Nat :=
    match tokens.get? i1 with
    | some t => if t ∈ RANK_WORDS then (some t, i1 + 1) else (none, i1)
    | none => (none, i1)
  match tokens.get? ranked.2 with
  | some t =>
    if t ∈ SIBLING_WORDS then Except.ok ⟨t, ranked.1, ranked.2 + 1⟩
    else Except.error "Ожидали «сестра/брат»"
  | none => Except.error "Ожидали «сестра/брат»"

/-! ### Graph synthesizer (`buildGraphFromSibling`) -/

structure LabelSex where
  label : String
  sex : Sex
deriving DecidableEq, Repr

def labelForPath (base : Base) (path : List Step) : LabelSex :=
  match path with
  | [s] =>
    if s = Step.mother then
      ⟨if base = Base.he then "Его мать" else "Её мать", Sex.female⟩
    else ⟨if base = Base.he then "Его отец" else "Её отец", Sex.male⟩
  | [first, second] =>
    let lineText :=
      if first = Step.mother then "по материнской линии" else "по отцовской линии"
    let isGrandfather := second = Step.father
    ⟨(if base = Base.he then "Его " else "Её ") ++
        (if isGrandfather then "дед" else "бабушка") ++ " (" ++ lineText ++ ")",
      if isGrandfather then Sex.male else Sex.female⟩
  | _ =>
    ⟨(if base = Base.he then "Его предок" else "Её предок") ++ " в " ++
        toString path.length ++ "-м колене", Sex.unknown⟩

/-- Canonical decimal rendering backing `genId`'s `String(_id++)`. -/
def digitChar (d : Nat) : Char := Char.ofNat (48 + d)

def natStrGo : Nat → Nat → List Char
  | 0, _ => []
  | fuel + 1, n =>
    if n < 10 then [digitChar n] else natStrGo fuel (n / 10) ++ [digitChar (n % 10)]

def natStr (n : Nat) : String := ⟨natStrGo (n + 1) n⟩

structure SynthState where
  people : List Person
  rels : List ParentEdge
  byKey : JsMap String
  counter : Nat
deriving DecidableEq, Repr

/-- The synthesizer's `add`: reuse by `"name:" + name`, else create a
person with the next generated id. -/
def addSynth (st : SynthState) (name : String) (sex : Sex)
    (note : Option String) : SynthState × String :=
  let k := "name:" ++ name
  match jget st.byKey k with
  | some pid => (st, pid)
  | none =>
    let pid := natStr st.counter
    ⟨⟨st.people ++ [⟨pid, name, sex, note⟩], st.rels,
      jset st.byKey k pid, st.counter + 1⟩, pid⟩

/-- One edge insertion of the synthesizer, with its duplicate check. -/
def linkSynth (st : SynthState) (pid cid : String) : SynthState :=
  if st.rels.any (fun r => r.parentId == pid && r.childId == cid) then st
  else { st with rels := st.rels ++ [⟨pid, cid⟩] }

def ensureChainGo (base : Base) :
    List Step → List Step → SynthState → String → SynthState × String
  | _, [], st, child => (st, child)
  | done, s :: rest, st, child =>
    let path := done ++ [s]
    let ls := labelForPath base path
    let r1 := addSynth st ls.label ls.sex none
    let st2 := linkSynth r1.1 r1.2 child
    ensureChainGo base path rest st2 r1.2

def ensureChain (base : Base) (steps : List Step) (st : SynthState) :
    SynthState × String :=
  let r := addSynth st (if base = Base.he then "Он" else "Она")
    (if base = Base.he then Sex.male else Sex.female) none
  ensureChainGo base [] steps r.1 r.2

/-- `leftNode.note = leftNode.note ? leftNode.note + "; " + rank : rank`. -/
def setNote (people : List Person) (pid rank : String) : List Person :=
  people.map (fun p =>
    if p.id = pid then
      { p with note := some (match p.note with
        | some n => if n = "" then rank else n ++ "; " ++ rank
        | none => rank) }
    else p)

structure ParseOutput where
  people : List Person
  rels : List ParentEdge
deriving DecidableEq, Repr

def buildGraphFromSibling (leftSpec : RelSpec) (conn : Connector)
    (rightSpec : RelSpec) (counter : Nat) : ParseOutput × Nat :=
  let st0 : SynthState := ⟨[], [], [], counter⟩
  let r1 := ensureChain leftSpec.base leftSpec.steps st0
  let leftNode := r1.2
  let st2 :=
    match conn.rank with
    | some rank => { r1.1 with people := setNote r1.1.people leftNode rank }
    | none => r1.1
  let r2 := ensureChain rightSpec.base rightSpec.steps st2
  let rightNode := r2.2
  let r3 := addSynth r2.1 "Общий прадед" Sex.male none
  let r4 := addSynth r3.1 "Общая прабабушка" Sex.female none
  let st5 := linkSynth (linkSynth r4.1 r3.2 leftNode) r3.2 rightNode
  let st6 := linkSynth (linkSynth st5 r4.2 leftNode) r4.2 rightNode
  (⟨st6.people, st6.rels⟩, st6.counter)

def parseAdvancedKinship (inputText : String) (counter : Nat) :
    Except String (ParseOutput × Nat) :=
  let norm := normalizeText inputText
  if norm = "" then Except.error "Пустая строка"
  else
    let tokens := tokensOfNorm norm
    match parseRelativeSpec tokens 0 with
    | Except.error e => Except.error e
    | Except.ok left =>
      match parseSiblingConnector tokens left.next with
      | Except.error e => Except.error e
      | Except.ok conn =>
        match parseRelativeSpec tokens conn.next with
        | Except.error e => Except.error e
        | Except.ok right => Except.ok (buildGraphFromSibling left conn right counter)

/-! ### Direct edge insertion (`addParentChild`) -/

def addParentChild (parentSel childSel : String) (rels : List ParentEdge) :
    List ParentEdge :=
  if parentSel = "" ∨ childSel = "" ∨ parentSel = childSel then rels
  else if rels.any (fun r => r.parentId == parentSel && r.childId == childSel) then rels
  else rels ++ [⟨parentSel, childSel⟩]

/-! ### Parent-hop paths and BFS correctness -/

/-- `PathUp pf start v n`: `v` is reachable from `start` by exactly `n`
hops along the parent relation of `pf`. -/
inductive PathUp (pf : JsMap (List String)) (start : String) : String → Nat → Prop
  | refl : PathUp pf start start 0
  | snoc {u v : String} {n : Nat} :
      PathUp pf start u n → v ∈ parentsList pf u → PathUp pf start v (n + 1)

theorem pathUp_zero {pf : JsMap (List String)} {start v : String}
    (h : PathUp pf start v 0) : v = start := by
  cases h; rfl

theorem pathUp_succ {pf : JsMap (List String)} {start v : String} {m : Nat}
    (h : PathUp pf start v (m + 1)) :
    ∃ u, PathUp pf start u m ∧ v ∈ parentsList pf u := by
  cases h with
  | snoc hu hs => exact ⟨_, hu, hs⟩

theorem pathUp_trans {pf : JsMap (List String)} {a b c : String} {n m : Nat}
    (h1 : PathUp pf a b n) (h2 : PathUp pf b c m) : PathUp pf a c (n + m) := by
  induction h2 with
  | refl => exact h1
  | snoc _ hs ih => exact PathUp.snoc ih hs

theorem length_filter_mono {α : Type} {l : List α} {p q : α → Bool}
    (h : ∀ x, p x = true → q x = true) :
    (l.filter p).length ≤ (l.filter q).length := by
  induction l with
  | nil => simp
  | cons a t ih =>
    by_cases hp : p a = true
    · rw [List.filter_cons_of_pos hp, List.filter_cons_of_pos (h a hp)]
      simpa using ih
    · rw [List.filter_cons_of_neg (by simpa using hp)]
      by_cases hq : q a = true
      · rw [List.filter_cons_of_pos hq]
        exact le_trans ih (Nat.le_succ _)
      · rw [List.filter_cons_of_neg (by simpa using hq)]
        exact ih

theorem filter_not_mem_cons_lt {univ seen : List String} {p : String}
    (hp : p ∈ univ) (hns : p ∉ seen) :
    (univ.filter (fun x => decide (x ∉ p :: seen))).length + 1 ≤
      (univ.filter (fun x => decide (x ∉ seen))).length := by
  induction univ with
  | nil => simp at hp
  | cons a t ih =>
    by_cases hap : a = p
    · subst hap
      rw [List.filter_cons_of_neg (by simp), List.filter_cons_of_pos (by simpa using hns)]
      have : ∀ x : String, (fun x => decide (x ∉ a :: seen)) x = true →
          (fun x => decide (x ∉ seen)) x = true := by
        intro x hx
        simp only [decide_eq_true_eq] at hx ⊢
        exact fun hmem => hx (List.mem_cons_of_mem _ hmem)
      have := @length_filter_mono String t _ _ this
      simp only [List.length_cons]
      omega
    · have hpt : p ∈ t := by
        rcases List.mem_cons.mp hp with h | h
        · exact absurd h.symm hap
        · exact h
      by_cases has : a ∈ seen
      · rw [List.filter_cons_of_neg (by simp [has]),
          List.filter_cons_of_neg (by simpa using has)]
        exact ih hpt
      · rw [List.filter_cons_of_pos (by simp [has, Ne.symm (fun h => hap h.symm)]),
          List.filter_cons_of_pos (by simpa using has)]
        have := ih hpt
        simpa using Nat.succ_le_succ this

theorem stepParents_cons_mem {D : Nat} {p : String} {ps : List String}
    {depths : JsMap Nat} {seen : List String} (h : p ∈ seen) :
    stepParents D (p :: ps) depths seen = stepParents D ps depths seen := by
  simp only [stepParents, if_pos h]

theorem stepParents_cons_new {D : Nat} {p : String} {ps : List String}
    {depths : JsMap Nat} {seen : List String} (h : p ∉ seen)
    (hg : jget depths p = none) :
    stepParents D (p :: ps) depths seen =
      ((stepParents D ps (jset depths p (D + 1)) (p :: seen)).1,
        (stepParents D ps (jset depths p (D + 1)) (p :: seen)).2.1,
        (p, D + 1) :: (stepParents D ps (jset depths p (D + 1)) (p :: seen)).2.2) := by
  simp only [stepParents, if_neg h, hg]

theorem stepParents_spec (pf : JsMap (List String)) (start cur : String) (D : Nat)
    (hcur : PathUp pf start cur D) :
    ∀ ps depths seen,
      (∀ p ∈ ps, p ∈ parentsList pf cur) →
      (∀ v r, jget depths v = some r →
        PathUp pf start v r ∧ 1 ≤ r ∧ ∀ m, PathUp pf start v m → r ≤ m) →
      (∀ v, v ∈ seen ↔ (v = start ∨ ∃ r, jget depths v = some r)) →
      (∀ m v, PathUp pf start v m → m ≤ D → v ∈ seen) →
      (∀ v r, jget depths v = some r →
        jget (stepParents D ps depths seen).1 v = some r) ∧
      (∀ v r, jget (stepParents D ps depths seen).1 v = some r →
        PathUp pf start v r ∧ 1 ≤ r ∧ ∀ m, PathUp pf start v m → r ≤ m) ∧
      (∀ v, v ∈ (stepParents D ps depths seen).2.1 ↔
        (v = start ∨ ∃ r, jget (stepParents D ps depths seen).1 v = some r)) ∧
      (∀ v ∈ seen, v ∈ (stepParents D ps depths seen).2.1) ∧
      (∀ v ∈ (stepParents D ps depths seen).2.1,
        v ∈ seen ∨ ∃ e ∈ (stepParents D ps depths seen).2.2, e.1 = v) ∧
      (∀ e ∈ (stepParents D ps depths seen).2.2,
        e.2 = D + 1 ∧ PathUp pf start e.1 (D + 1) ∧
          e.1 ∈ (stepParents D ps depths seen).2.1 ∧
          ∀ m, PathUp pf start e.1 m → D + 1 ≤ m) ∧
      (∀ p ∈ ps, p ∈ (stepParents D ps depths seen).2.1) := by
  intro ps
  induction ps with
  | nil =>
    intro depths seen _ hsndd hseen _
    simp only [stepParents]
    refine ⟨fun v r h => h, hsndd, hseen, fun v h => h, fun v h => Or.inl h, ?_, ?_⟩
    · intro e he; simp at he
    · intro p hp; simp at hp
  | cons p ps ih =>
    intro depths seen hps hsndd hseen hshort
    by_cases hmem : p ∈ seen
    · rw [stepParents_cons_mem hmem]
      obtain ⟨c1, c2, c3, c4, c5, c6, c7⟩ :=
        ih depths seen (fun q hq => hps q (List.mem_cons_of_mem _ hq)) hsndd hseen hshort
      exact ⟨c1, c2, c3, c4, c5, c6, fun q hq => by
        rcases List.mem_cons.mp hq with h | h
        · exact h ▸ c4 p hmem
        · exact c7 q h⟩
    · have hpstart : p ≠ start := by
        intro hc
        exact hmem ((hseen p).mpr (Or.inl hc))
      have hg : jget depths p = none := by
        cases hjg : jget depths p with
        | none => rfl
        | some r => exact absurd ((hseen p).mpr (Or.inr ⟨r, hjg⟩)) hmem
      have hpparent : p ∈ parentsList pf cur := hps p (List.mem_cons_self _ _)
      have hppath : PathUp pf start p (D + 1) := PathUp.snoc hcur hpparent
      have hpmin : ∀ m, PathUp pf start p m → D + 1 ≤ m := by
        intro m hm
        by_contra hlt
        push_neg at hlt
        exact hmem (hshort m p hm (by omega))
      rw [stepParents_cons_new hmem hg]
      have hsndd' : ∀ v r, jget (jset depths p (D + 1)) v = some r →
          PathUp pf start v r ∧ 1 ≤ r ∧ ∀ m, PathUp pf start v m → r ≤ m := by
        intro v r hv
        by_cases hvp : v = p
        · subst hvp
          rw [jget_jset_self] at hv
          cases hv
          exact ⟨hppath, by omega, hpmin⟩
        · rw [jget_jset_ne _ _ _ _ hvp] at hv
          exact hsndd v r hv
      have hseen' : ∀ v, v ∈ p :: seen ↔
          (v = start ∨ ∃ r, jget (jset depths p (D + 1)) v = some r) := by
        intro v
        by_cases hvp : v = p
        · subst hvp
          simp only [List.mem_cons, true_or, true_iff]
          exact Or.inr ⟨D + 1, jget_jset_self _ _ _⟩
        · rw [jget_jset_ne _ _ _ _ hvp]
          constructor
          · intro hv
            rcases List.mem_cons.mp hv with h | h
            · exact absurd h hvp
            · exact (hseen v).mp h
          · intro hv
            exact List.mem_cons_of_mem _ ((hseen v).mpr hv)
      have hshort' : ∀ m v, PathUp pf start v m → m ≤ D → v ∈ p :: seen :=
        fun m v hm hle => List.mem_cons_of_mem _ (hshort m v hm hle)
      obtain ⟨c1, c2, c3, c4, c5, c6, c7⟩ :=
        ih (jset depths p (D + 1)) (p :: seen)
          (fun q hq => hps q (List.mem_cons_of_mem _ hq)) hsndd' hseen' hshort'
      refine ⟨?_, c2, c3, ?_, ?_, ?_, ?_⟩
      · intro v r hv
        have hvp : v ≠ p := by
          intro hc; subst hc; rw [hg] at hv; cases hv
        exact c1 v r (by rw [jget_jset_ne _ _ _ _ hvp]; exact hv)
      · intro v hv
        exact c4 v (List.mem_cons_of_mem _ hv)
      · intro v hv
        rcases c5 v hv with h | ⟨e, he, hev⟩
        · rcases List.mem_cons.mp h with h | h
          · exact Or.inr ⟨(p, D + 1), List.mem_cons_self _ _, h.symm⟩
          · exact Or.inl h
        · exact Or.inr ⟨e, List.mem_cons_of_mem _ he, hev⟩
      · intro e he
        rcases List.mem_cons.mp he with h | h
        · subst h
          exact ⟨rfl, hppath, c4 p (List.mem_cons_self _ _), hpmin⟩
        · exact c6 e h
      · intro q hq
        rcases List.mem_cons.mp hq with h | h
        · exact h ▸ c4 p (List.mem_cons_self _ _)
        · exact c7 q h

/-- The depth value the inner loop would record for `p` (`d+1` on first
discovery; the `?? Infinity` guard in the source never keeps an old
value because unseen ids are unrecorded). -/
def stepNv (D : Nat) (depths : JsMap Nat) (p : String) : Nat :=
  match jget depths p with
  | some v => if v < D + 1 then v else D + 1
  | none => D + 1

theorem stepParents_cons_notmem {D : Nat} {p : String} {ps : List String}
    {depths : JsMap Nat} {seen : List String} (h : p ∉ seen) :
    stepParents D (p :: ps) depths seen =
      ((stepParents D ps (jset depths p (stepNv D depths p)) (p :: seen)).1,
        (stepParents D ps (jset depths p (stepNv D depths p)) (p :: seen)).2.1,
        (p, D + 1) ::
          (stepParents D ps (jset depths p (stepNv D depths p)) (p :: seen)).2.2) := by
  simp only [stepParents, if_neg h, stepNv]

theorem stepParents_measure (univ : List String) (D : Nat) :
    ∀ ps (depths : JsMap Nat) (seen : List String), (∀ p ∈ ps, p ∈ univ) →
      (stepParents D ps depths seen).2.2.length +
        (univ.filter (fun x => decide (x ∉ (stepParents D ps depths seen).2.1))).length ≤
        (univ.filter (fun x => decide (x ∉ seen))).length := by
  intro ps
  induction ps with
  | nil => intro depths seen _; simp [stepParents]
  | cons p ps ih =>
    intro depths seen hps
    by_cases hmem : p ∈ seen
    · rw [stepParents_cons_mem hmem]
      exact ih depths seen (fun q hq => hps q (List.mem_cons_of_mem _ hq))
    · rw [stepParents_cons_notmem hmem]
      have h1 := ih (jset depths p (stepNv D depths p)) (p :: seen)
        (fun q hq => hps q (List.mem_cons_of_mem _ hq))
      have h2 := @filter_not_mem_cons_lt univ seen p
        (hps p (List.mem_cons_self _ _)) hmem
      simp only [List.length_cons]
      omega

structure BfsInv (pf : JsMap (List String)) (start : String)
    (q : List (String × Nat)) (seen : List String) (depths : JsMap Nat) : Prop where
  lvl : ∃ D q₁ q₂, q = q₁ ++ q₂ ∧ (∀ e ∈ q₁, e.2 = D) ∧ (∀ e ∈ q₂, e.2 = D + 1) ∧
    (q₁ = [] → q₂ = [])
  sndq : ∀ e ∈ q, PathUp pf start e.1 e.2 ∧ e.1 ∈ seen ∧
    ∀ m, PathUp pf start e.1 m → e.2 ≤ m
  sndd : ∀ v r, jget depths v = some r →
    PathUp pf start v r ∧ 1 ≤ r ∧ ∀ m, PathUp pf start v m → r ≤ m
  seen_iff : ∀ v, v ∈ seen ↔ (v = start ∨ ∃ r, jget depths v = some r)
  expf : ∀ w ∈ seen, (∃ e ∈ q, e.1 = w) ∨ ∀ p ∈ parentsList pf w, p ∈ seen

theorem bfs_short_seen {pf : JsMap (List String)} {start : String}
    {q : List (String × Nat)} {seen : List String} {depths : JsMap Nat}
    (inv : BfsInv pf start q seen depths) {D : Nat} (hq : ∀ e ∈ q, D ≤ e.2) :
    ∀ m v, PathUp pf start v m → m ≤ D → v ∈ seen := by
  intro m
  induction m with
  | zero =>
    intro v hp _
    rw [pathUp_zero hp]
    exact (inv.seen_iff start).mpr (Or.inl rfl)
  | succ m ih =>
    intro v hp hle
    obtain ⟨u, hu, hstep⟩ := pathUp_succ hp
    have hus : u ∈ seen := ih u hu (by omega)
    rcases inv.expf u hus with ⟨e, he, hev⟩ | hexp
    · have h1 := (inv.sndq e he).2.2 m (by rw [hev]; exact hu)
      have h2 := hq e he
      omega
    · exact hexp v hstep

theorem bfs_empty_final {pf : JsMap (List String)} {start : String}
    {seen : List String} {depths : JsMap Nat}
    (inv : BfsInv pf start [] seen depths) :
    (∀ v r, jget depths v = some r →
      PathUp pf start v r ∧ 1 ≤ r ∧ ∀ m, PathUp pf start v m → r ≤ m) ∧
    (∀ v m, PathUp pf start v m → v ≠ start → ∃ r, jget depths v = some r) := by
  refine ⟨inv.sndd, ?_⟩
  have hclosed : ∀ w ∈ seen, ∀ p ∈ parentsList pf w, p ∈ seen := by
    intro w hw
    rcases inv.expf w hw with ⟨e, he, _⟩ | hexp
    · simp at he
    · exact hexp
  have hall : ∀ v m, PathUp pf start v m → v ∈ seen := by
    intro v m hp
    induction hp with
    | refl => exact (inv.seen_iff start).mpr (Or.inl rfl)
    | snoc hu hs ih => exact hclosed _ ih _ hs
  intro v m hp hne
  rcases (inv.seen_iff v).mp (hall v m hp) with h | h
  · exact absurd h hne
  · exact h

theorem bfsLoop_spec (pf : JsMap (List String)) (start : String) :
    ∀ fuel (q : List (String × Nat)) (seen : List String) (depths : JsMap Nat),
      BfsInv pf start q seen depths →
      q.length + ((univOf pf).filter (fun x => decide (x ∉ seen))).length ≤ fuel →
      (∀ v r, jget (bfsLoop pf fuel q seen depths) v = some r →
        PathUp pf start v r ∧ 1 ≤ r ∧ ∀ m, PathUp pf start v m → r ≤ m) ∧
      (∀ v m, PathUp pf start v m → v ≠ start →
        ∃ r, jget (bfsLoop pf fuel q seen depths) v = some r) := by
  intro fuel
  induction fuel with
  | zero =>
    intro q seen depths inv hm
    match q with
    | [] => exact bfs_empty_final inv
    | e :: rest => simp at hm
  | succ fuel ih =>
    intro q seen depths inv hm
    match q with
    | [] => exact bfs_empty_final inv
    | (cur, d) :: rest =>
      obtain ⟨D, q₁, q₂, hsplit, h₁, h₂, hnorm⟩ := inv.lvl
      cases q₁ with
      | nil =>
        rw [hnorm rfl] at hsplit
        simp at hsplit
      | cons e₁ q₁' =>
        rw [List.cons_append] at hsplit
        injection hsplit with hsplit1 hsplit2
        have hd : d = D := by
          have := h₁ e₁ (List.mem_cons_self _ _)
          rw [← hsplit1] at this
          exact this
        subst hd
        have hq₁' : ∀ e ∈ q₁', e.2 = d := fun e he => h₁ e (List.mem_cons_of_mem _ he)
        have hq_ge : ∀ e ∈ (cur, d) :: rest, d ≤ e.2 := by
          intro e he
          rcases List.mem_cons.mp he with h | h
          · rw [h]
          · rw [hsplit2] at h
            rcases List.mem_append.mp h with h | h
            · rw [hq₁' e h]
            · rw [h₂ e h]; omega
        have hshort := bfs_short_seen inv hq_ge
        have hcur : PathUp pf start cur d :=
          (inv.sndq (cur, d) (List.mem_cons_self _ _)).1
        obtain ⟨c1, c2, c3, c4, c5, c6, c7⟩ :=
          stepParents_spec pf start cur d hcur (parentsList pf cur) depths seen
            (fun p hp => hp) inv.sndd inv.seen_iff hshort
        have hstep : bfsLoop pf (fuel + 1) ((cur, d) :: rest) seen depths =
            bfsLoop pf fuel
              (rest ++ (stepParents d (parentsList pf cur) depths seen).2.2)
              (stepParents d (parentsList pf cur) depths seen).2.1
              (stepParents d (parentsList pf cur) depths seen).1 := by
          simp only [bfsLoop]
        rw [hstep]
        set r := stepParents d (parentsList pf cur) depths seen with hr
        have hinv' : BfsInv pf start (rest ++ r.2.2) r.2.1 r.1 := by
          refine ⟨?_, ?_, c2, c3, ?_⟩
          · by_cases hq1e : q₁' = []
            · refine ⟨d + 1, q₂ ++ r.2.2, [], ?_, ?_, ?_, fun _ => rfl⟩
              · rw [hsplit2, hq1e, List.nil_append, List.append_nil]
              · intro e he
                rcases List.mem_append.mp he with h | h
                · exact h₂ e h
                · exact (c6 e h).1
              · intro e he; simp at he
            · refine ⟨d, q₁', q₂ ++ r.2.2, ?_, hq₁', ?_, fun h => absurd h hq1e⟩
              · rw [hsplit2, List.append_assoc]
              · intro e he
                rcases List.mem_append.mp he with h | h
                · exact h₂ e h
                · exact (c6 e h).1
          · intro e he
            rcases List.mem_append.mp he with h | h
            · have hold := inv.sndq e (List.mem_cons_of_mem _ h)
              exact ⟨hold.1, c4 _ hold.2.1, hold.2.2⟩
            · obtain ⟨hdep, hpath, hmem, hmin⟩ := c6 e h
              refine ⟨?_, hmem, ?_⟩
              · rw [hdep]; exact hpath
              · intro m hm; rw [hdep]; exact hmin m hm
          · intro w hw
            rcases c5 w hw with hws | ⟨e, he, hev⟩
            · rcases inv.expf w hws with ⟨e, he, hev⟩ | hexp
              · rcases List.mem_cons.mp he with h | h
                · refine Or.inr ?_
                  intro p hp
                  have hwc : w = cur := by rw [h] at hev; exact hev.symm
                  rw [hwc] at hp
                  exact c7 p hp
                · exact Or.inl ⟨e, List.mem_append.mpr (Or.inl h), hev⟩
              · exact Or.inr (fun p hp => c4 p (hexp p hp))
            · exact Or.inl ⟨e, List.mem_append.mpr (Or.inr he), hev⟩
        have hmeas' : (rest ++ r.2.2).length +
            ((univOf pf).filter (fun x => decide (x ∉ r.2.1))).length ≤ fuel := by
          have hmeas := stepParents_measure (univOf pf) d (parentsList pf cur)
            depths seen (fun p hp => mem_univOf_of_mem_parentsList hp)
          rw [← hr] at hmeas
          have hlen : ((cur, d) :: rest).length = rest.length + 1 := by simp
          rw [hlen] at hm
          have hlen2 : (rest ++ r.2.2).length = rest.length + r.2.2.length := by simp
          rw [hlen2]
          omega
        exact ih (rest ++ r.2.2) r.2.1 r.1 hinv' hmeas'

theorem getAncestors_spec (start : String) (pf : JsMap (List String)) :
    (∀ v r, jget (getAncestors start pf) v = some r →
      PathUp pf start v r ∧ 1 ≤ r ∧ ∀ m, PathUp pf start v m → r ≤ m) ∧
    (∀ v m, PathUp pf start v m → v ≠ start →
      ∃ r, jget (getAncestors start pf) v = some r) := by
  unfold getAncestors
  apply bfsLoop_spec pf start ((univOf pf).length + 1) [(start, 0)] [start] []
  · constructor
    · exact ⟨0, [(start, 0)], [], rfl, by simp, by simp, by simp⟩
    · intro e he
      simp only [List.mem_singleton] at he
      subst he
      exact ⟨PathUp.refl, by simp, fun m _ => Nat.zero_le m⟩
    · intro v r h
      simp [jget] at h
    · intro v
      simp [jget]
    · intro w hw
      simp only [List.mem_singleton] at hw
      exact Or.inl ⟨(start, 0), List.mem_singleton.mpr rfl, hw.symm⟩
  · have := List.length_filter_le (fun x => decide (x ∉ [start])) (univOf pf)
    simp only [List.length_singleton]
    omega

theorem getAncestors_sound {start : String} {pf : JsMap (List String)}
    {v : String} {r : Nat} (h : jget (getAncestors start pf) v = some r) :
    PathUp pf start v r :=
  ((getAncestors_spec start pf).1 v r h).1

theorem getAncestors_pos {start : String} {pf : JsMap (List String)}
    {v : String} {r : Nat} (h : jget (getAncestors start pf) v = some r) :
    1 ≤ r :=
  ((getAncestors_spec start pf).1 v r h).2.1

theorem getAncestors_min {start : String} {pf : JsMap (List String)}
    {v : String} {r : Nat} (h : jget (getAncestors start pf) v = some r) :
    ∀ m, PathUp pf start v m → r ≤ m :=
  ((getAncestors_spec start pf).1 v r h).2.2

theorem getAncestors_complete {start : String} {pf : JsMap (List String)}
    {v : String} {m : Nat} (h : PathUp pf start v m) (hne : v ≠ start) :
    ∃ r, jget (getAncestors start pf) v = some r ∧ r ≤ m := by
  obtain ⟨r, hr⟩ := (getAncestors_spec start pf).2 v m h hne
  exact ⟨r, hr, getAncestors_min hr m h⟩

/-! ### Edges are reflected in the `parentsOf` index -/

def pfStep (m : JsMap (List String)) (e : ParentEdge) : JsMap (List String) :=
  let m1 := if jHasKey m e.childId then m else jset m e.childId []
  jset m1 e.childId ((jget m1 e.childId).getD [] ++ [e.parentId])

theorem buildIndexes_parentsOf (people : List Person) (edges : List ParentEdge) :
    (buildIndexes people edges).parentsOf =
      edges.foldl pfStep (people.foldl (fun m p => jset m p.id []) []) := rfl

theorem mem_parentsList_pfStep_self (m : JsMap (List String)) (e : ParentEdge) :
    e.parentId ∈ parentsList (pfStep m e) e.childId := by
  unfold pfStep parentsList
  rw [jget_jset_self]
  simp

theorem mem_parentsList_pfStep_mono {m : JsMap (List String)} {x v : String}
    (e : ParentEdge) (h : v ∈ parentsList m x) :
    v ∈ parentsList (pfStep m e) x := by
  unfold pfStep parentsList at *
  by_cases hx : x = e.childId
  · subst hx
    rw [jget_jset_self]
    by_cases hk : jHasKey m e.childId = true
    · rw [if_pos hk]
      simp only [Option.getD_some]
      exact List.mem_append.mpr (Or.inl h)
    · rw [jget_none_of_not_hasKey hk] at h
      simp at h
  · rw [jget_jset_ne _ _ _ _ hx]
    by_cases hk : jHasKey m e.childId = true
    · rw [if_pos hk]
      exact h
    · rw [if_neg hk, jget_jset_ne _ _ _ _ hx]
      exact h

theorem mem_parentsList_foldl_mono {edges : List ParentEdge} :
    ∀ (m : JsMap (List String)) (x v : String), v ∈ parentsList m x →
      v ∈ parentsList (edges.foldl pfStep m) x := by
  induction edges with
  | nil => intro m x v h; exact h
  | cons e t ih =>
    intro m x v h
    exact ih (pfStep m e) x v (mem_parentsList_pfStep_mono e h)

theorem edge_mem_foldl {edges : List ParentEdge} :
    ∀ (m : JsMap (List String)) {e : ParentEdge}, e ∈ edges →
      e.parentId ∈ parentsList (edges.foldl pfStep m) e.childId := by
  induction edges with
  | nil => intro m e he; simp at he
  | cons e0 t ih =>
    intro m e he
    rw [List.foldl_cons]
    rcases List.mem_cons.mp he with h | h
    · subst h
      exact mem_parentsList_foldl_mono (pfStep m e) _ _
        (mem_parentsList_pfStep_self m e)
    · exact ih (pfStep m e0) h

theorem edge_mem_parentsList {people : List Person} {edges : List ParentEdge}
    {e : ParentEdge} (he : e ∈ edges) :
    e.parentId ∈ parentsList (buildIndexes people edges).parentsOf e.childId := by
  rw [buildIndexes_parentsOf]
  exact edge_mem_foldl _ he

/-! ### Acyclicity -/

/-- The parent relation is acyclic: no id reaches itself by a positive
number of parent hops. -/
def Acyclic (pf : JsMap (List String)) : Prop :=
  ∀ v n, PathUp pf v v n → n = 0

/-- All (child, parent) pairs of a `parentsOf` map, for finitely
checking rank functions on concrete graphs. -/
def edgePairs (pf : JsMap (List String)) : List (String × String) :=
  (pf.map (fun kv => kv.2.map (fun p => (kv.1, p)))).flatten

theorem mem_edgePairs {pf : JsMap (List String)} {v p : String}
    (h : p ∈ parentsList pf v) : (v, p) ∈ edgePairs pf := by
  unfold parentsList at h
  cases hg : jget pf v with
  | none => rw [hg] at h; simp at h
  | some l =>
    rw [hg] at h
    simp only [Option.getD_some] at h
    unfold edgePairs
    rw [List.mem_flatten]
    exact ⟨l.map (fun p => (v, p)),
      List.mem_map.mpr ⟨(v, l), jget_eq_some_mem hg, rfl⟩,
      List.mem_map.mpr ⟨p, h, rfl⟩⟩

theorem pathUp_rank {pf : JsMap (List String)} {rank : String → Nat}
    (h : ∀ pr ∈ edgePairs pf, rank pr.1 < rank pr.2) :
    ∀ {s v : String} {n : Nat}, PathUp pf s v n → rank s + n ≤ rank v := by
  intro s v n hp
  induction hp with
  | refl => omega
  | snoc hu hs ih =>
    have := h _ (mem_edgePairs hs)
    simp only at this
    omega

theorem acyclic_of_rank (pf : JsMap (List String)) (rank : String → Nat)
    (h : ∀ pr ∈ edgePairs pf, rank pr.1 < rank pr.2) : Acyclic pf := by
  intro v n hp
  have := pathUp_rank h hp
  omega

/-! ### `findLCA` returns a sum-then-max minimal common ancestor -/

def lcaStep (A B : JsMap Nat) (best : Option LCAResult) (id : String) :
    Option LCAResult :=
  if jHasKey B id then
    let dA := (jget A id).getD 0
    let dB := (jget B id).getD 0
    match best with
    | none => some ⟨id, dA, dB⟩
    | some bst =>
      if dA + dB < bst.dA + bst.dB ∨
          (dA + dB = bst.dA + bst.dB ∧ max dA dB < max bst.dA bst.dB) then
        some ⟨id, dA, dB⟩
      else some bst
  else best

theorem findLCA_eq_fold (a b : String) (pf : JsMap (List String)) :
    findLCA a b pf = (jsKeys (getAncestors a pf)).foldl
      (lcaStep (getAncestors a pf) (getAncestors b pf)) none := rfl

def candAt (A B : JsMap Nat) (k : String) : LCAResult :=
  ⟨k, (jget A k).getD 0, (jget B k).getD 0⟩

/-- Lexicographic (sum, max) comparison used by the resolver. -/
def scoreLE (r s : LCAResult) : Prop :=
  r.dA + r.dB < s.dA + s.dB ∨
    (r.dA + r.dB = s.dA + s.dB ∧ max r.dA r.dB ≤ max s.dA s.dB)

theorem jget_isSome_of_mem_keys {β : Type} {m : JsMap β} {k : String}
    (h : k ∈ m.map (fun kv => kv.1)) : ∃ v, jget m k = some v := by
  induction m with
  | nil => simp at h
  | cons kv t ih =>
    rw [jget]
    by_cases hk : kv.1 = k
    · rw [if_pos hk]; exact ⟨kv.2, rfl⟩
    · rw [if_neg hk]
      apply ih
      simp only [List.map_cons, List.mem_cons] at h
      rcases h with h | h
      · exact absurd h.symm hk
      · exact h

theorem lcaStep_notB {A B : JsMap Nat} {acc : Option LCAResult} {k : String}
    (h : ¬ jHasKey B k = true) : lcaStep A B acc k = acc := by
  unfold lcaStep; rw [if_neg h]

theorem lcaStep_none {A B : JsMap Nat} {k : String} (h : jHasKey B k = true) :
    lcaStep A B none k = some (candAt A B k) := by
  unfold lcaStep candAt; rw [if_pos h]

theorem lcaStep_some {A B : JsMap Nat} {bst : LCAResult} {k : String}
    (h : jHasKey B k = true) :
    lcaStep A B (some bst) k =
      if (jget A k).getD 0 + (jget B k).getD 0 < bst.dA + bst.dB ∨
          ((jget A k).getD 0 + (jget B k).getD 0 = bst.dA + bst.dB ∧
            max ((jget A k).getD 0) ((jget B k).getD 0) < max bst.dA bst.dB) then
        some (candAt A B k)
      else some bst := by
  unfold lcaStep candAt; rw [if_pos h]

theorem scoreLE_refl (r : LCAResult) : scoreLE r r := Or.inr ⟨rfl, le_refl _⟩

theorem scoreLE_trans {r s t : LCAResult} (h1 : scoreLE r s) (h2 : scoreLE s t) :
    scoreLE r t := by
  unfold scoreLE at *
  rcases h1 with h1 | h1 <;> rcases h2 with h2 | h2
  · exact Or.inl (by omega)
  · exact Or.inl (by omega)
  · exact Or.inl (by omega)
  · exact Or.inr ⟨by omega, by omega⟩

/-- One resolver step never worsens the accumulator and always beats or
matches the examined key. -/
theorem lcaStep_progress {A B : JsMap Nat} {acc : Option LCAResult} {k : String} :
    (∀ r0, lcaStep A B acc k = some r0 →
      (∀ bst, acc = some bst → scoreLE r0 bst) ∧
      (jHasKey B k = true → scoreLE r0 (candAt A B k))) ∧
    (lcaStep A B acc k = none → acc = none ∧ jHasKey B k ≠ true) := by
  by_cases hB : jHasKey B k = true
  · cases acc with
    | none =>
      rw [lcaStep_none hB]
      constructor
      · intro r0 h0
        injection h0 with h0
        subst h0
        exact ⟨fun bst hb => Option.noConfusion hb, fun _ => scoreLE_refl _⟩
      · intro h0
        exact Option.noConfusion h0
    | some bst0 =>
      rw [lcaStep_some hB]
      split
      next hlt =>
        constructor
        · intro r0 h0
          injection h0 with h0
          subst h0
          constructor
          · intro bst hb
            injection hb with hb
            subst hb
            unfold scoreLE candAt
            rcases hlt with h | h
            · exact Or.inl h
            · exact Or.inr ⟨h.1, le_of_lt h.2⟩
          · intro _
            exact scoreLE_refl _
        · intro h0
          exact Option.noConfusion h0
      next hlt =>
        constructor
        · intro r0 h0
          injection h0 with h0
          subst h0
          constructor
          · intro bst hb
            injection hb with hb
            subst hb
            exact scoreLE_refl _
          · intro _
            push_neg at hlt
            obtain ⟨h1, h2⟩ := hlt
            unfold scoreLE candAt
            dsimp only
            rcases Nat.lt_or_ge (bst0.dA + bst0.dB)
              ((jget A k).getD 0 + (jget B k).getD 0) with h | h
            · exact Or.inl h
            · have heq : bst0.dA + bst0.dB = (jget A k).getD 0 + (jget B k).getD 0 := by
                omega
              exact Or.inr ⟨heq, by have := h2 heq.symm; omega⟩
        · intro h0
          exact Option.noConfusion h0
  · rw [lcaStep_notB hB]
    constructor
    · intro r0 h0
      constructor
      · intro bst hb
        rw [h0] at hb
        injection hb with hb
        subst hb
        exact scoreLE_refl _
      · intro hc
        exact absurd hc hB
    · intro h0
      exact ⟨h0, hB⟩

theorem lcaStep_cand {A B : JsMap Nat} {acc : Option LCAResult} {k : String}
    (hacc : ∀ bst, acc = some bst →
      jget A bst.id = some bst.dA ∧ jget B bst.id = some bst.dB)
    (hkA : ∃ v, jget A k = some v) :
    ∀ r0, lcaStep A B acc k = some r0 →
      jget A r0.id = some r0.dA ∧ jget B r0.id = some r0.dB := by
  intro r0 h0
  by_cases hB : jHasKey B k = true
  · obtain ⟨vA, hvA⟩ := hkA
    obtain ⟨vB, hvB⟩ := jget_isSome_of_mem_keys ((jHasKey_iff_mem_keys B k).mp hB)
    have hcandk : jget A (candAt A B k).id = some (candAt A B k).dA ∧
        jget B (candAt A B k).id = some (candAt A B k).dB := by
      unfold candAt
      simp [hvA, hvB]
    cases acc with
    | none =>
      rw [lcaStep_none hB] at h0
      cases h0
      exact hcandk
    | some bst0 =>
      rw [lcaStep_some hB] at h0
      split at h0
      · cases h0; exact hcandk
      · cases h0; exact hacc _ rfl
  · rw [lcaStep_notB hB] at h0
    exact hacc _ h0

theorem lcaFold_spec (A B : JsMap Nat) :
    ∀ (ks : List String) (acc : Option LCAResult),
      (∀ bst, acc = some bst →
        jget A bst.id = some bst.dA ∧ jget B bst.id = some bst.dB) →
      (∀ k ∈ ks, ∃ v, jget A k = some v) →
      (ks.foldl (lcaStep A B) acc = none ↔
        acc = none ∧ ∀ k ∈ ks, jHasKey B k ≠ true) ∧
      (∀ r, ks.foldl (lcaStep A B) acc = some r →
        (jget A r.id = some r.dA ∧ jget B r.id = some r.dB) ∧
        (∀ k ∈ ks, jHasKey B k = true → scoreLE r (candAt A B k)) ∧
        (∀ bst, acc = some bst → scoreLE r bst)) := by
  intro ks
  induction ks with
  | nil =>
    intro acc hacc _
    refine ⟨by simp, ?_⟩
    intro r hr
    simp only [List.foldl_nil] at hr
    refine ⟨hacc r hr, by simp, fun bst hb => ?_⟩
    rw [hb] at hr
    cases hr
    exact scoreLE_refl _
  | cons k ks ih =>
    intro acc hacc hkeys
    simp only [List.foldl_cons]
    have hkA := hkeys k (List.mem_cons_self _ _)
    obtain ⟨ihnone, ihsome⟩ := ih (lcaStep A B acc k)
      (lcaStep_cand hacc hkA)
      (fun q hq => hkeys q (List.mem_cons_of_mem _ hq))
    constructor
    · rw [ihnone]
      constructor
      · rintro ⟨hstep, hrest⟩
        obtain ⟨haccn, hBk⟩ := lcaStep_progress.2 hstep
        refine ⟨haccn, ?_⟩
        intro q hq
        rcases List.mem_cons.mp hq with h | h
        · rw [h]; exact hBk
        · exact hrest q h
      · rintro ⟨haccn, hall⟩
        have hBk := hall k (List.mem_cons_self _ _)
        refine ⟨?_, fun q hq => hall q (List.mem_cons_of_mem _ hq)⟩
        rw [lcaStep_notB hBk, haccn]
    · intro r hr
      obtain ⟨hc, hmin, hinit⟩ := ihsome r hr
      refine ⟨hc, ?_, ?_⟩
      · intro q hq hBq
        rcases List.mem_cons.mp hq with h | h
        · subst h
          match hstep0 : lcaStep A B acc q with
          | none => exact absurd hBq (lcaStep_progress.2 hstep0).2
          | some r0 =>
            exact scoreLE_trans (hinit r0 hstep0)
              ((lcaStep_progress.1 r0 hstep0).2 hBq)
        · exact hmin q h hBq
      · intro bst hbst
        match hstep0 : lcaStep A B acc k with
        | none =>
          rw [hbst] at hstep0
          have := (lcaStep_progress.2 hstep0).1
          cases this
        | some r0 =>
          exact scoreLE_trans (hinit r0 hstep0)
            ((lcaStep_progress.1 r0 hstep0).1 bst hbst)

theorem findLCA_none_iff (a b : String) (pf : JsMap (List String)) :
    findLCA a b pf = none ↔
      ∀ k, ¬(jHasKey (getAncestors a pf) k = true ∧
        jHasKey (getAncestors b pf) k = true) := by
  rw [findLCA_eq_fold]
  have hkeys : ∀ k ∈ jsKeys (getAncestors a pf),
      ∃ v, jget (getAncestors a pf) k = some v :=
    fun k hk => jget_isSome_of_mem_keys (mem_jsKeys.mp hk)
  rw [(lcaFold_spec (getAncestors a pf) (getAncestors b pf)
    (jsKeys (getAncestors a pf)) none (fun bst h => Option.noConfusion h) hkeys).1]
  constructor
  · rintro ⟨_, hall⟩ k ⟨hA, hB⟩
    exact hall k (mem_jsKeys.mpr ((jHasKey_iff_mem_keys _ k).mp hA)) hB
  · intro h
    exact ⟨rfl, fun k hk hB =>
      h k ⟨(jHasKey_iff_mem_keys _ k).mpr (mem_jsKeys.mp hk), hB⟩⟩

theorem findLCA_some_spec {a b : String} {pf : JsMap (List String)}
    {r : LCAResult} (h : findLCA a b pf = some r) :
    jget (getAncestors a pf) r.id = some r.dA ∧
    jget (getAncestors b pf) r.id = some r.dB ∧
    ∀ k dA dB, jget (getAncestors a pf) k = some dA →
      jget (getAncestors b pf) k = some dB →
      r.dA + r.dB < dA + dB ∨
        (r.dA + r.dB = dA + dB ∧ max r.dA r.dB ≤ max dA dB) := by
  rw [findLCA_eq_fold] at h
  have hkeys : ∀ k ∈ jsKeys (getAncestors a pf),
      ∃ v, jget (getAncestors a pf) k = some v :=
    fun k hk => jget_isSome_of_mem_keys (mem_jsKeys.mp hk)
  obtain ⟨hc, hmin, _⟩ := (lcaFold_spec (getAncestors a pf) (getAncestors b pf)
    (jsKeys (getAncestors a pf)) none (fun bst hb => Option.noConfusion hb) hkeys).2 r h
  refine ⟨hc.1, hc.2, ?_⟩
  intro k dA dB hA hB
  have hkmem : k ∈ jsKeys (getAncestors a pf) :=
    mem_jsKeys.mpr (List.mem_map.mpr ⟨(k, dA), jget_eq_some_mem hA, rfl⟩)
  have hs := hmin k hkmem (jHasKey_of_jget_eq_some hB)
  unfold candAt scoreLE at hs
  rw [hA, hB] at hs
  simpa using hs

/-! ### Concrete graphs used by witnesses and counterexamples -/

/-- Diamond: two upward paths from `a` to `g`, of lengths 2 (via `x`)
and 3 (via `y`, `z`). -/
def diamondPeople : List Person :=
  [⟨"a", "A", Sex.unknown, none⟩, ⟨"x", "X", Sex.unknown, none⟩,
    ⟨"y", "Y", Sex.unknown, none⟩, ⟨"z", "Z", Sex.unknown, none⟩,
    ⟨"g", "G", Sex.unknown, none⟩]

def diamondEdges : List ParentEdge :=
  [⟨"x", "a"⟩, ⟨"g", "x"⟩, ⟨"y", "a"⟩, ⟨"z", "y"⟩, ⟨"g", "z"⟩]

def diamondRank : String → Nat := fun s =>
  if s = "a" then 0 else if s = "x" then 1 else if s = "y" then 1
  else if s = "z" then 2 else 3

/-- LCA tie-break graph: common ancestors `c2` at distances (1,3) and
`c1` at distances (2,2); equal sums, `c1` has the smaller maximum. -/
def tiePeople : List Person :=
  [⟨"aa", "AA", Sex.unknown, none⟩, ⟨"bb", "BB", Sex.unknown, none⟩,
    ⟨"p", "P", Sex.unknown, none⟩, ⟨"q", "Q", Sex.unknown, none⟩,
    ⟨"rr", "R", Sex.unknown, none⟩, ⟨"c1", "C1", Sex.unknown, none⟩,
    ⟨"c2", "C2", Sex.unknown, none⟩]

def tieEdges : List ParentEdge :=
  [⟨"p", "aa"⟩, ⟨"c2", "aa"⟩, ⟨"c1", "p"⟩, ⟨"q", "bb"⟩, ⟨"c1", "q"⟩,
    ⟨"rr", "q"⟩, ⟨"c2", "rr"⟩]

/-- C3: for a `parentsOf` mapping derived from an acyclic edge set,
`getAncestors` maps each ancestor reachable by parent hops (and only
those) to the minimum hop count over all paths. -/
theorem claim_C3_getAncestors_min_distance (people : List Person)
    (edges : List ParentEdge) (start : String)
    (hacyc : Acyclic (buildIndexes people edges).parentsOf) :
    (∀ a d, jget (getAncestors start (buildIndexes people edges).parentsOf) a =
        some d →
      PathUp (buildIndexes people edges).parentsOf start a d ∧
      ∀ m, PathUp (buildIndexes people edges).parentsOf start a m → d ≤ m) ∧
    (∀ a m, PathUp (buildIndexes people edges).parentsOf start a m → 1 ≤ m →
      ∃ d, jget (getAncestors start (buildIndexes people edges).parentsOf) a =
        some d ∧ d ≤ m) := by
  constructor
  · intro a d h
    exact ⟨getAncestors_sound h, getAncestors_min h⟩
  · intro a m h hm
    have hne : a ≠ start := by
      intro hc
      subst hc
      have := hacyc a m h
      omega
    exact getAncestors_complete h hne

/-- C3 witness: on the diamond, the ancestor `g` reachable by paths of
lengths 2 and 3 is recorded at distance 2, and 2 is a lower bound on
every path length. -/
theorem claim_C3_witness :
    jget (getAncestors "a" (buildIndexes diamondPeople diamondEdges).parentsOf)
        "g" = some 2 ∧
    PathUp (buildIndexes diamondPeople diamondEdges).parentsOf "a" "g" 2 :=
  ⟨by decide,
    ((claim_C3_getAncestors_min_distance diamondPeople diamondEdges "a"
      (acyclic_of_rank _ diamondRank (by decide))).1 "g" 2 (by decide)).1⟩

/-- C4: `findLCA` returns a common ancestor carrying the two recorded
ancestor distances, minimal first by distance sum and on ties by the
larger distance; it returns `none` exactly when the two ancestor sets
are disjoint. -/
theorem claim_C4_findLCA_minimal (people : List Person)
    (edges : List ParentEdge) (a b : String) :
    (∀ r, findLCA a b (buildIndexes people edges).parentsOf = some r →
      PathUp (buildIndexes people edges).parentsOf a r.id r.dA ∧
      PathUp (buildIndexes people edges).parentsOf b r.id r.dB ∧
      jget (getAncestors a (buildIndexes people edges).parentsOf) r.id =
        some r.dA ∧
      jget (getAncestors b (buildIndexes people edges).parentsOf) r.id =
        some r.dB ∧
      ∀ k dA dB,
        jget (getAncestors a (buildIndexes people edges).parentsOf) k = some dA →
        jget (getAncestors b (buildIndexes people edges).parentsOf) k = some dB →
        r.dA + r.dB < dA + dB ∨
          (r.dA + r.dB = dA + dB ∧ max r.dA r.dB ≤ max dA dB)) ∧
    (findLCA a b (buildIndexes people edges).parentsOf = none ↔
      ∀ k, ¬(jHasKey (getAncestors a (buildIndexes people edges).parentsOf) k =
          true ∧
        jHasKey (getAncestors b (buildIndexes people edges).parentsOf) k =
          true)) := by
  constructor
  · intro r h
    obtain ⟨h1, h2, h3⟩ := findLCA_some_spec h
    exact ⟨getAncestors_sound h1, getAncestors_sound h2, h1, h2, h3⟩
  · exact findLCA_none_iff a b _

/-- C4 witness: on the tie graph the resolver picks `c1` (distances
(2,2)) over `c2` (distances (1,3)); sums tie and `c1` has the smaller
maximum, which the theorem certifies as optimal. -/
theorem claim_C4_witness :
    findLCA "aa" "bb" (buildIndexes tiePeople tieEdges).parentsOf =
      some ⟨"c1", 2, 2⟩ ∧
    jget (getAncestors "aa" (buildIndexes tiePeople tieEdges).parentsOf) "c2" =
      some 1 ∧
    jget (getAncestors "bb" (buildIndexes tiePeople tieEdges).parentsOf) "c2" =
      some 3 ∧
    (2 + 2 < 1 + 3 ∨ (2 + 2 = 1 + 3 ∧ max 2 2 ≤ max 1 3)) :=
  ⟨by decide, by decide, by decide, by
    have h := ((claim_C4_findLCA_minimal tiePeople tieEdges "aa" "bb").1
      ⟨"c1", 2, 2⟩ (by decide)).2.2.2.2 "c2" 1 3 (by decide) (by decide)
    exact h⟩

/-! ### Direct-line classification of a recorded parent (C8) -/

theorem str_append_empty (s : String) : s ++ "" = s := by
  apply String.ext
  rw [String.data_append]
  exact List.append_nil _

theorem str_append_assoc (a b c : String) : a ++ b ++ c = a ++ (b ++ c) := by
  apply String.ext
  simp [String.data_append]

theorem describeLine_cases (byId : JsMap Person) (path : List String) :
    describeLine byId path = "" ∨
      describeLine byId path = "по материнской линии" ∨
      describeLine byId path = "по отцовской линии" := by
  unfold describeLine
  cases path.get? 1 with
  | none => exact Or.inl rfl
  | some pid =>
    dsimp only
    cases jget byId pid with
    | none => exact Or.inl rfl
    | some firstParent =>
      dsimp only
      cases firstParent.sex with
      | male => exact Or.inr (Or.inr rfl)
      | female => exact Or.inr (Or.inl rfl)
      | unknown => exact Or.inl rfl

theorem relationLabel_parent_edge (people : List Person)
    (edges : List ParentEdge) (P A : String) (pP pA : Person)
    (hedge : (⟨P, A⟩ : ParentEdge) ∈ edges) (hne : P ≠ A)
    (hP : jget (buildIndexes people edges).byId P = some pP)
    (hA : jget (buildIndexes people edges).byId A = some pA) :
    ∃ suffix,
      (suffix = "" ∨ suffix = " (по материнской линии)" ∨
        suffix = " (по отцовской линии)") ∧
      (relationLabel P A people edges).title =
        sexNoun pP.sex "отец" "мать" "родитель" ++ suffix ∧
      (relationLabel P A people edges).reverseTitle =
        sexNoun pA.sex "сын" "дочь" "ребёнок" ++ suffix := by
  have hmem : P ∈ parentsList (buildIndexes people edges).parentsOf A :=
    @edge_mem_parentsList people edges ⟨P, A⟩ hedge
  have hpath : PathUp (buildIndexes people edges).parentsOf A P 1 :=
    PathUp.snoc PathUp.refl hmem
  obtain ⟨r, hr, hrle⟩ := getAncestors_complete hpath hne
  have hr1 : r = 1 := le_antisymm hrle (getAncestors_pos hr)
  subst hr1
  have hup : isAncestorOf P A (buildIndexes people edges).parentsOf = 1 := by
    unfold isAncestorOf
    rw [hr]
    rfl
  unfold relationLabel
  simp only [hP, hA, hup]
  have hone : (1 : Int) ≤ 1 := le_refl _
  rw [if_pos hone]
  have hdesc : describeAncestor 1 pP.sex = sexNoun pP.sex "отец" "мать" "родитель" := rfl
  have hdesc2 : describeDescendant 1 pA.sex = sexNoun pA.sex "сын" "дочь" "ребёнок" := rfl
  rcases describeLine_cases (buildIndexes people edges).byId
    (pathToAncestor A P (buildIndexes people edges).parentsOf) with hl | hl | hl
  · refine ⟨"", Or.inl rfl, ?_, ?_⟩
    · simp only [hl, if_pos]
      rw [hdesc, str_append_empty]
    · simp only [hl, if_pos]
      rw [hdesc2, str_append_empty]
  · refine ⟨" (по материнской линии)", Or.inr (Or.inl rfl), ?_, ?_⟩
    · rw [hl]
      simp only [if_neg (by decide : ¬("по материнской линии" : String) = "")]
      rw [hdesc, str_append_assoc, str_append_assoc]
      congr 1
    · rw [hl]
      simp only [if_neg (by decide : ¬("по материнской линии" : String) = "")]
      rw [hdesc2, str_append_assoc, str_append_assoc]
      congr 1
  · refine ⟨" (по отцовской линии)", Or.inr (Or.inr rfl), ?_, ?_⟩
    · rw [hl]
      simp only [if_neg (by decide : ¬("по отцовской линии" : String) = "")]
      rw [hdesc, str_append_assoc, str_append_assoc]
      congr 1
    · rw [hl]
      simp only [if_neg (by decide : ¬("по отцовской линии" : String) = "")]
      rw [hdesc2, str_append_assoc, str_append_assoc]
      congr 1

/-! ### Scenario graphs -/

/-- Scenario 1: father F, mother M, son S, daughter D. -/
def sibPeople : List Person :=
  [⟨"f", "Отец", Sex.male, none⟩, ⟨"m", "Мать", Sex.female, none⟩,
    ⟨"s", "Сын", Sex.male, none⟩, ⟨"d", "Дочь", Sex.female, none⟩]

def sibEdges : List ParentEdge :=
  [⟨"f", "s"⟩, ⟨"m", "s"⟩, ⟨"f", "d"⟩, ⟨"m", "d"⟩]

/-- Scenario 2: a single maternal edge. -/
def momPeople : List Person :=
  [⟨"mom", "Мама", Sex.female, none⟩, ⟨"c", "Ребёнок", Sex.male, none⟩]

def momEdges : List ParentEdge := [⟨"mom", "c"⟩]

def twoLonePeople : List Person :=
  [⟨"aa", "Аня", Sex.female, none⟩, ⟨"bb", "Боря", Sex.male, none⟩]

theorem no_long_path_of_no_pairs {pf : JsMap (List String)}
    (h : edgePairs pf = []) : ∀ s v n, PathUp pf s v n → n = 0 := by
  intro s v n hp
  have := @pathUp_rank pf (fun _ => 0)
    (by rw [h]; intro pr hpr; cases hpr) s v n hp
  dsimp only at this
  omega

/-- C2: in Scenario 1 the code returns `classify(S,D)` with roleOfA
"сестра" — the sibling branch inflects the forward title by the *other*
person's sex, unlike every other branch of the classifier, so the
forward role of the male son is reported as "sister". -/
theorem claim_C2_sibling_roleOfA_swapped :
    relationLabel "s" "d" sibPeople sibEdges =
      ⟨"сестра",
        ["Общий предок: Отец", "Линии: по отцовской линии / по отцовской линии"],
        "брат"⟩ ∧
    ((relationLabel "s" "d" sibPeople sibEdges).title == "брат") = false ∧
    sexNoun Sex.male "брат" "сестра" "сиблинг" = "брат" := by
  refine ⟨by decide, by decide, rfl⟩

/-- C6 counterexample: an unknown id yields the placeholder "—" result,
not the "Связь не найдена" value the claim promises for both miss
cases. -/
theorem claim_C6_counterexample :
    relationLabel "zz" "aa" twoLonePeople [] = ⟨"—", [], "—"⟩ ∧
    (("—" : String) == "Связь не найдена") = false := by
  refine ⟨by decide, by decide⟩

/-- C6 (amended): the classifier is a total function; an unknown id
yields the "—" placeholder result and a connected-person pair with no
ancestor relation in either direction and no common ancestor yields the
"Связь не найдена" result, both with empty evidence. -/
theorem claim_C6_lookup_miss (people : List Person) (edges : List ParentEdge)
    (a b : String) :
    ((jget (buildIndexes people edges).byId a = none ∨
        jget (buildIndexes people edges).byId b = none) →
      relationLabel a b people edges = ⟨"—", [], "—"⟩) ∧
    (∀ pa pb, jget (buildIndexes people edges).byId a = some pa →
      jget (buildIndexes people edges).byId b = some pb →
      (∀ n, 1 ≤ n → ¬ PathUp (buildIndexes people edges).parentsOf b a n) →
      (∀ n, 1 ≤ n → ¬ PathUp (buildIndexes people edges).parentsOf a b n) →
      (∀ k, ¬((∃ n, 1 ≤ n ∧ PathUp (buildIndexes people edges).parentsOf a k n) ∧
        (∃ m, 1 ≤ m ∧ PathUp (buildIndexes people edges).parentsOf b k m))) →
      relationLabel a b people edges =
        ⟨"Связь не найдена", [], "Связь не найдена"⟩) := by
  constructor
  · intro h
    unfold relationLabel
    rcases h with h | h
    · simp only [h]
    · simp only [h]
      cases jget (buildIndexes people edges).byId a <;> rfl
  · intro pa pb hpa hpb hup hdown hcom
    have hupn : jget (getAncestors b (buildIndexes people edges).parentsOf) a =
        none := by
      cases hg : jget (getAncestors b (buildIndexes people edges).parentsOf) a with
      | none => rfl
      | some r =>
        exact absurd (getAncestors_sound hg) (hup r (getAncestors_pos hg))
    have hdownn : jget (getAncestors a (buildIndexes people edges).parentsOf) b =
        none := by
      cases hg : jget (getAncestors a (buildIndexes people edges).parentsOf) b with
      | none => rfl
      | some r =>
        exact absurd (getAncestors_sound hg) (hdown r (getAncestors_pos hg))
    have hlca : findLCA a b (buildIndexes people edges).parentsOf = none := by
      rw [findLCA_none_iff]
      intro k ⟨hA, hB⟩
      obtain ⟨rA, hrA⟩ := jget_isSome_of_mem_keys ((jHasKey_iff_mem_keys _ k).mp hA)
      obtain ⟨rB, hrB⟩ := jget_isSome_of_mem_keys ((jHasKey_iff_mem_keys _ k).mp hB)
      exact hcom k ⟨⟨rA, getAncestors_pos hrA, getAncestors_sound hrA⟩,
        ⟨rB, getAncestors_pos hrB, getAncestors_sound hrB⟩⟩
    have hu : isAncestorOf a b (buildIndexes people edges).parentsOf = -1 := by
      unfold isAncestorOf
      rw [hupn]
    have hd : isAncestorOf b a (buildIndexes people edges).parentsOf = -1 := by
      unfold isAncestorOf
      rw [hdownn]
    unfold relationLabel
    simp only [hpa, hpb, hu, hd, hlca]
    rw [if_neg (by decide : ¬(1 : Int) ≤ -1), if_neg (by decide : ¬(1 : Int) ≤ -1)]

/-- C6 witness: both miss cases at concrete inputs. -/
theorem claim_C6_witness :
    relationLabel "zz" "aa" twoLonePeople [] = ⟨"—", [], "—"⟩ ∧
    relationLabel "aa" "bb" twoLonePeople [] =
      ⟨"Связь не найдена", [], "Связь не найдена"⟩ :=
  ⟨(claim_C6_lookup_miss twoLonePeople [] "zz" "aa").1 (Or.inl (by decide)),
    (claim_C6_lookup_miss twoLonePeople [] "aa" "bb").2
      ⟨"aa", "Аня", Sex.female, none⟩ ⟨"bb", "Боря", Sex.male, none⟩
      (by decide) (by decide)
      (fun n hn hp => by
        have := no_long_path_of_no_pairs (by decide) _ _ _ hp; omega)
      (fun n hn hp => by
        have := no_long_path_of_no_pairs (by decide) _ _ _ hp; omega)
      (fun k ⟨⟨n, hn, hp⟩, _⟩ => by
        have := no_long_path_of_no_pairs (by decide) _ _ _ hp; omega)⟩

/-- C8 counterexample: in Scenario 2 the evidence list holds only the
reconstructed path and carries no maternal-line annotation (the
annotation is attached to the titles instead). -/
theorem claim_C8_counterexample :
    (relationLabel "mom" "c" momPeople momEdges).details =
      ["Общий путь: Ребёнок → Мама"] ∧
    ((relationLabel "mom" "c" momPeople momEdges).details.all
      (fun s => decide (¬ ("материнской".data <:+: s.data)))) = true := by
  refine ⟨by decide, by decide⟩

/-- C8 (amended): for every recorded parent edge P → A with both
persons present, roleOfA is the parent term sexed by P and roleOfB the
corresponding child term sexed by A, both carrying the same
line-of-descent suffix; in Scenario 2 the maternal-line annotation
appears in the titles while the evidence list holds the path. -/
theorem claim_C8_parent_child_roles :
    (∀ (people : List Person) (edges : List ParentEdge) (P A : String)
        (pP pA : Person), (⟨P, A⟩ : ParentEdge) ∈ edges → P ≠ A →
      jget (buildIndexes people edges).byId P = some pP →
      jget (buildIndexes people edges).byId A = some pA →
      (relationLabel P A people edges).title ∈
        [sexNoun pP.sex "отец" "мать" "родитель",
          sexNoun pP.sex "отец" "мать" "родитель" ++ " (по материнской линии)",
          sexNoun pP.sex "отец" "мать" "родитель" ++ " (по отцовской линии)"] ∧
      (relationLabel P A people edges).reverseTitle ∈
        [sexNoun pA.sex "сын" "дочь" "ребёнок",
          sexNoun pA.sex "сын" "дочь" "ребёнок" ++ " (по материнской линии)",
          sexNoun pA.sex "сын" "дочь" "ребёнок" ++ " (по отцовской линии)"]) ∧
    (relationLabel "mom" "c" momPeople momEdges).title =
      "мать (по материнской линии)" ∧
    (relationLabel "mom" "c" momPeople momEdges).details =
      ["Общий путь: Ребёнок → Мама"] := by
  refine ⟨?_, by decide, by decide⟩
  intro people edges P A pP pA hedge hne hP hA
  obtain ⟨suffix, hsuf, ht, hrt⟩ :=
    relationLabel_parent_edge people edges P A pP pA hedge hne hP hA
  rcases hsuf with h | h | h <;> subst h <;> rw [ht, hrt] <;>
    first
      | exact ⟨by rw [str_append_empty]; exact List.mem_cons_self _ _,
          by rw [str_append_empty]; exact List.mem_cons_self _ _⟩
      | exact ⟨List.mem_cons_of_mem _ (List.mem_cons_self _ _),
          List.mem_cons_of_mem _ (List.mem_cons_self _ _)⟩
      | exact ⟨List.mem_cons_of_mem _ (List.mem_cons_of_mem _ (List.mem_cons_self _ _)),
          List.mem_cons_of_mem _ (List.mem_cons_of_mem _ (List.mem_cons_self _ _))⟩

/-- C8 witness: the general statement applied to Scenario 2. -/
theorem claim_C8_witness :
    (relationLabel "mom" "c" momPeople momEdges).title ∈
      [sexNoun Sex.female "отец" "мать" "родитель",
        sexNoun Sex.female "отец" "мать" "родитель" ++ " (по материнской линии)",
        sexNoun Sex.female "отец" "мать" "родитель" ++ " (по отцовской линии)"] ∧
    (relationLabel "mom" "c" momPeople momEdges).reverseTitle ∈
      [sexNoun Sex.male "сын" "дочь" "ребёнок",
        sexNoun Sex.male "сын" "дочь" "ребёнок" ++ " (по материнской линии)",
        sexNoun Sex.male "сын" "дочь" "ребёнок" ++ " (по отцовской линии)"] :=
  claim_C8_parent_child_roles.1 momPeople momEdges "mom" "c"
    ⟨"mom", "Мама", Sex.female, none⟩ ⟨"c", "Ребёнок", Sex.male, none⟩
    (by decide) (by decide) (by decide) (by decide)

/-! ### Idempotence of the text normalizer (C10) -/

/-- Characters that can survive normalization besides the space. -/
def cleanChar (c : Char) : Prop := goodChar c = true ∨ c = ' '

theorem space_toNat : (' ' : Char).toNat = 32 := rfl

theorem jsSpace_of_clean {c : Char} (h : cleanChar c) (hs : jsSpace c = true) :
    c = ' ' := by
  rcases h with h | h
  · unfold goodChar at h
    unfold jsSpace at hs
    simp only [decide_eq_true_eq] at h hs
    omega
  · exact h

theorem jsLowerChar_clean {c : Char} (h : cleanChar c) : jsLowerChar c = c := by
  unfold jsLowerChar
  rcases h with h | h
  · unfold goodChar at h
    simp only [decide_eq_true_eq] at h
    rw [if_neg (by omega), if_neg (by omega), if_neg (by omega)]
  · subst h
    rfl

theorem yo_clean {c : Char} (h : cleanChar c) :
    (if c = 'ё' then 'е' else c) = c := by
  rw [if_neg]
  intro hc
  subst hc
  rcases h with h | h
  · exact absurd h (by decide)
  · exact absurd h (by decide)

theorem dash_clean {c : Char} (h : cleanChar c) :
    (if c = '–' ∨ c = '—' ∨ c = '-' then ' ' else c) = c := by
  rw [if_neg]
  rintro (hc | hc | hc) <;> subst hc <;> rcases h with h | h <;>
    exact absurd h (by decide)

theorem kept_clean {c : Char} (h : cleanChar c) : keptChar c = true := by
  unfold keptChar
  rcases h with h | h
  · rw [h]; rfl
  · subst h
    rfl

theorem strip_clean {c : Char} (h : cleanChar c) :
    (if keptChar c then c else ' ') = c := by
  rw [if_pos (kept_clean h)]

theorem map_id_of_fixed {l : List Char} {f : Char → Char}
    (h : ∀ c ∈ l, f c = c) : l.map f = l := by
  induction l with
  | nil => rfl
  | cons c cs ih =>
    rw [List.map_cons, h c (List.mem_cons_self _ _),
      ih (fun d hd => h d (List.mem_cons_of_mem _ hd))]

/-- Adjacent characters of a normalized string are never both
whitespace. -/
def noWsPair (a b : Char) : Prop := ¬(jsSpace a = true ∧ jsSpace b = true)

theorem head_collapse_true :
    ∀ (l : List Char) (d : Char), (collapseWsGo true l).head? = some d →
      jsSpace d = false := by
  intro l
  induction l with
  | nil => intro d h; cases h
  | cons c cs ih =>
    intro d h
    rw [collapseWsGo] at h
    by_cases hsp : jsSpace c = true
    · rw [if_pos hsp, if_pos rfl] at h
      exact ih d h
    · rw [if_neg hsp] at h
      cases h
      simpa using hsp

theorem chain_collapse :
    ∀ (flag : Bool) (l : List Char),
      List.Chain' noWsPair (collapseWsGo flag l) := by
  intro flag l
  induction l generalizing flag with
  | nil => cases flag <;> exact List.chain'_nil
  | cons c cs ih =>
    rw [collapseWsGo]
    by_cases hsp : jsSpace c = true
    · rw [if_pos hsp]
      cases flag
      · simp only [Bool.false_eq_true, if_false]
        rw [List.chain'_cons']
        refine ⟨?_, ih true⟩
        intro d hd
        intro ⟨_, hds⟩
        rw [head_collapse_true cs d hd] at hds
        cases hds
      · simp only [if_true]
        exact ih true
    · rw [if_neg hsp]
      rw [List.chain'_cons']
      refine ⟨?_, ih false⟩
      intro d _
      intro ⟨hcs, _⟩
      exact hsp hcs

theorem mem_collapse :
    ∀ (flag : Bool) (l : List Char) (c : Char), c ∈ collapseWsGo flag l →
      c = ' ' ∨ (c ∈ l ∧ jsSpace c = false) := by
  intro flag l
  induction l generalizing flag with
  | nil => intro c h; cases h
  | cons a cs ih =>
    intro c h
    rw [collapseWsGo] at h
    by_cases hsp : jsSpace a = true
    · rw [if_pos hsp] at h
      cases flag
      · simp only [Bool.false_eq_true, if_false] at h
        rcases List.mem_cons.mp h with h | h
        · exact Or.inl h
        · rcases ih true c h with h | ⟨h1, h2⟩
          · exact Or.inl h
          · exact Or.inr ⟨List.mem_cons_of_mem _ h1, h2⟩
      · simp only [if_true] at h
        rcases ih true c h with h | ⟨h1, h2⟩
        · exact Or.inl h
        · exact Or.inr ⟨List.mem_cons_of_mem _ h1, h2⟩
    · rw [if_neg hsp] at h
      rcases List.mem_cons.mp h with h | h
      · subst h
        exact Or.inr ⟨List.mem_cons_self _ _, by simpa using hsp⟩
      · rcases ih false c h with h | ⟨h1, h2⟩
        · exact Or.inl h
        · exact Or.inr ⟨List.mem_cons_of_mem _ h1, h2⟩

theorem collapse_id :
    ∀ (l : List Char), (∀ c ∈ l, jsSpace c = true → c = ' ') →
      List.Chain' noWsPair l →
      collapseWsGo false l = l ∧
        ((∀ d, l.head? = some d → jsSpace d = false) →
          collapseWsGo true l = l) := by
  intro l
  induction l with
  | nil => exact fun _ _ => ⟨rfl, fun _ => rfl⟩
  | cons c cs ih =>
    intro hs hch
    obtain ⟨hrel, hch'⟩ := List.chain'_cons'.mp hch
    obtain ⟨ih1, ih2⟩ := ih (fun d hd => hs d (List.mem_cons_of_mem _ hd)) hch'
    by_cases hsp : jsSpace c = true
    · have hc : c = ' ' := hs c (List.mem_cons_self _ _) hsp
      constructor
      · rw [collapseWsGo, if_pos hsp]
        simp only [Bool.false_eq_true, if_false]
        rw [ih2 ?_, hc]
        intro d hd
        have := hrel d hd
        unfold noWsPair at this
        cases hb : jsSpace d
        · rfl
        · exact absurd ⟨hsp, hb⟩ this
      · intro hh
        have := hh c rfl
        rw [hsp] at this
        cases this
    · constructor
      · rw [collapseWsGo, if_neg hsp, ih1]
      · intro _
        rw [collapseWsGo, if_neg hsp, ih1]

theorem dropWhile_head_not {p : Char → Bool} :
    ∀ (l : List Char) (d : Char), (l.dropWhile p).head? = some d →
      p d = false := by
  intro l
  induction l with
  | nil => intro d h; cases h
  | cons c cs ih =>
    intro d h
    rw [List.dropWhile_cons] at h
    by_cases hp : p c = true
    · rw [if_pos hp] at h
      exact ih d h
    · rw [if_neg hp] at h
      cases h
      simpa using hp

theorem mem_of_mem_dropWhile {p : Char → Bool} :
    ∀ {l : List Char} {c : Char}, c ∈ l.dropWhile p → c ∈ l := by
  intro l
  induction l with
  | nil => intro c h; cases h
  | cons a cs ih =>
    intro c h
    rw [List.dropWhile_cons] at h
    by_cases hp : p a = true
    · rw [if_pos hp] at h
      exact List.mem_cons_of_mem _ (ih h)
    · rw [if_neg hp] at h
      exact h

theorem dropWhile_id {p : Char → Bool} {l : List Char}
    (h : ∀ d, l.head? = some d → p d = false) : l.dropWhile p = l := by
  cases l with
  | nil => rfl
  | cons c cs =>
    rw [List.dropWhile_cons, if_neg]
    rw [h c rfl]
    simp

theorem chain'_dropWhile {R : Char → Char → Prop} {p : Char → Bool}
    {l : List Char} (h : List.Chain' R l) :
    List.Chain' R (l.dropWhile p) := by
  have hsplit : l.takeWhile p ++ l.dropWhile p = l :=
    List.takeWhile_append_dropWhile p l
  rw [← hsplit] at h
  exact ((List.chain'_append.mp h).2.1)

theorem chain'_rev {R : Char → Char → Prop}
    (hsym : ∀ a b, R a b → R b a) {l : List Char} (h : List.Chain' R l) :
    List.Chain' R l.reverse := by
  rw [List.chain'_reverse]
  exact List.Chain'.imp (fun a b hr => hsym a b hr) h

theorem getLast_dropWhile_of_ne_nil {p : Char → Bool} {l : List Char}
    (h : l.dropWhile p ≠ []) : (l.dropWhile p).getLast? = l.getLast? := by
  have hsplit : l.takeWhile p ++ l.dropWhile p = l :=
    List.takeWhile_append_dropWhile p l
  conv_rhs => rw [← hsplit]
  rw [List.getLast?_append_of_ne_nil _ h]

theorem trimWs_mem {l : List Char} {c : Char} (h : c ∈ trimWs l) : c ∈ l := by
  unfold trimWs at h
  rw [List.mem_reverse] at h
  have h2 := mem_of_mem_dropWhile h
  rw [List.mem_reverse] at h2
  exact mem_of_mem_dropWhile h2

theorem trimWs_chain {l : List Char} (h : List.Chain' noWsPair l) :
    List.Chain' noWsPair (trimWs l) := by
  unfold trimWs
  have hsym : ∀ a b, noWsPair a b → noWsPair b a := by
    intro a b hab ⟨h1, h2⟩
    exact hab ⟨h2, h1⟩
  exact chain'_rev hsym (chain'_dropWhile (chain'_rev hsym (chain'_dropWhile h)))

theorem trimWs_head {l : List Char} {d : Char}
    (h : (trimWs l).head? = some d) : jsSpace d = false := by
  unfold trimWs at h
  rw [List.head?_reverse] at h
  have hne : (l.dropWhile jsSpace).reverse.dropWhile jsSpace ≠ [] := by
    intro hc
    rw [hc] at h
    cases h
  rw [getLast_dropWhile_of_ne_nil hne, List.getLast?_reverse] at h
  exact dropWhile_head_not _ _ h

theorem trimWs_last {l : List Char} {d : Char}
    (h : (trimWs l).getLast? = some d) : jsSpace d = false := by
  unfold trimWs at h
  rw [List.getLast?_reverse] at h
  exact dropWhile_head_not _ _ h

theorem trimWs_id {l : List Char}
    (hh : ∀ d, l.head? = some d → jsSpace d = false)
    (hl : ∀ d, l.getLast? = some d → jsSpace d = false) : trimWs l = l := by
  unfold trimWs
  rw [dropWhile_id hh, dropWhile_id (fun d hd => hl d (by rwa [List.head?_reverse] at hd)),
    List.reverse_reverse]

theorem normalizeTextL_clean {l : List Char} :
    ∀ c ∈ normalizeTextL l, cleanChar c := by
  intro c hc
  unfold normalizeTextL at hc
  have hc2 := trimWs_mem hc
  rcases mem_collapse false _ c hc2 with h | ⟨h1, h2⟩
  · exact Or.inr h
  · obtain ⟨d, _, hcd⟩ := List.mem_map.mp h1
    by_cases hk : keptChar d = true
    · rw [if_pos hk] at hcd
      subst hcd
      unfold keptChar at hk
      rcases Bool.or_eq_true_iff.mp hk with h | h
      · exact Or.inl h
      · rw [h] at h2
        cases h2
    · rw [if_neg hk] at hcd
      exact Or.inr hcd.symm

theorem normalizeTextL_chain {l : List Char} :
    List.Chain' noWsPair (normalizeTextL l) := by
  unfold normalizeTextL
  exact trimWs_chain (chain_collapse false _)

theorem normalizeTextL_idem (l : List Char) :
    normalizeTextL (normalizeTextL l) = normalizeTextL l := by
  have hclean : ∀ c ∈ normalizeTextL l, cleanChar c := normalizeTextL_clean
  have hchain : List.Chain' noWsPair (normalizeTextL l) := normalizeTextL_chain
  have e1 : (normalizeTextL l).map jsLowerChar = normalizeTextL l :=
    map_id_of_fixed (fun c hc => jsLowerChar_clean (hclean c hc))
  have e2 : (normalizeTextL l).map (fun c => if c = 'ё' then 'е' else c) =
      normalizeTextL l :=
    map_id_of_fixed (fun c hc => yo_clean (hclean c hc))
  have e3 : (normalizeTextL l).map
      (fun c => if c = '–' ∨ c = '—' ∨ c = '-' then ' ' else c) =
      normalizeTextL l :=
    map_id_of_fixed (fun c hc => dash_clean (hclean c hc))
  have e4 : (normalizeTextL l).map (fun c => if keptChar c then c else ' ') =
      normalizeTextL l :=
    map_id_of_fixed (fun c hc => strip_clean (hclean c hc))
  have e5 : collapseWs (normalizeTextL l) = normalizeTextL l :=
    (collapse_id _ (fun c hc hs => jsSpace_of_clean (hclean c hc) hs) hchain).1
  have e6 : trimWs (normalizeTextL l) = normalizeTextL l := by
    refine trimWs_id ?_ ?_
    · intro d hd
      unfold normalizeTextL at hd
      exact trimWs_head hd
    · intro d hd
      unfold normalizeTextL at hd
      exact trimWs_last hd
  calc normalizeTextL (normalizeTextL l) =
      trimWs (collapseWs (((((normalizeTextL l).map jsLowerChar).map
        (fun c => if c = 'ё' then 'е' else c)).map
        (fun c => if c = '–' ∨ c = '—' ∨ c = '-' then ' ' else c)).map
        (fun c => if keptChar c then c else ' '))) := rfl
    _ = normalizeTextL l := by rw [e1, e2, e3, e4, e5, e6]

/-- C10: text normalization is idempotent — normalizing an
already-normalized string returns it unchanged. -/
theorem claim_C10_normalizeText_idempotent (s : String) :
    normalizeText (normalizeText s) = normalizeText s := by
  unfold normalizeText
  exact congrArg String.mk (normalizeTextL_idem s.data)

/-! ### Mandatory line clause after grandparent terms (C7) -/

theorem grand_not_family_word {w : String}
    (h : isGrandfatherWord w = true ∨ isGrandmotherWord w = true) :
    ¬ w ∈ motherWords ∧ ¬ w ∈ fatherWords := by
  constructor
  · intro hm
    unfold motherWords at hm
    rcases List.mem_cons.mp hm with h0 | h0
    · subst h0
      rcases h with h | h <;> exact absurd h (by decide)
    · rcases List.mem_cons.mp h0 with h1 | h1
      · subst h1
        rcases h with h | h <;> exact absurd h (by decide)
      · cases h1
  · intro hm
    unfold fatherWords at hm
    rcases List.mem_cons.mp hm with h0 | h0
    · subst h0
      rcases h with h | h <;> exact absurd h (by decide)
    · rcases List.mem_cons.mp h0 with h1 | h1
      · subst h1
        rcases h with h | h <;> exact absurd h (by decide)
      · cases h1

theorem parseRelativeSpec_missing_line (tokens : List String) (i0 : Nat)
    (pron w : String) (hp : tokens.get? i0 = some pron) (hpron : pron ∈ PRONOUN)
    (hw : tokens.get? (i0 + 1) = some w)
    (hgrand : isGrandfatherWord w = true ∨ isGrandmotherWord w = true)
    (hline : (takeLine tokens (i0 + 2)).side = none) :
    parseRelativeSpec tokens i0 = Except.error lineClauseError := by
  obtain ⟨hnm, hnf⟩ := grand_not_family_word hgrand
  unfold parseRelativeSpec
  simp only [hp, hw]
  rw [if_pos hpron, if_neg hnm, if_neg hnf, if_pos (by
    rcases hgrand with h | h
    · rw [h]; rfl
    · rw [h]; exact Bool.or_true _)]
  simp only [hline]

/-- C7: a grandparent term not immediately followed by a line clause
aborts parsing with the error naming the required clause — stated for
the relative-spec parser at any position, and lifted to the phrase
parser when the offending term is the first spec's; the `Except.error`
result carries no persons and no edges by construction. -/
theorem claim_C7_grand_requires_line_clause :
    (∀ (tokens : List String) (i0 : Nat) (pron w : String),
      tokens.get? i0 = some pron → pron ∈ PRONOUN →
      tokens.get? (i0 + 1) = some w →
      (isGrandfatherWord w = true ∨ isGrandmotherWord w = true) →
      (takeLine tokens (i0 + 2)).side = none →
      parseRelativeSpec tokens i0 = Except.error lineClauseError) ∧
    (∀ (s : String) (c : Nat) (pron w : String),
      normalizeText s ≠ "" →
      (tokensOfNorm (normalizeText s)).get? 0 = some pron → pron ∈ PRONOUN →
      (tokensOfNorm (normalizeText s)).get? 1 = some w →
      (isGrandfatherWord w = true ∨ isGrandmotherWord w = true) →
      (takeLine (tokensOfNorm (normalizeText s)) 2).side = none →
      parseAdvancedKinship s c = Except.error lineClauseError) := by
  constructor
  · exact parseRelativeSpec_missing_line
  · intro s c pron w hne hp hpron hw hgrand hline
    unfold parseAdvancedKinship
    rw [if_neg hne]
    simp only [parseRelativeSpec_missing_line (tokensOfNorm (normalizeText s)) 0
      pron w hp hpron hw hgrand hline]

/-- C7 witness: Scenario 5's phrase fails with the line-clause error. -/
theorem claim_C7_witness :
    parseAdvancedKinship "его дед — старший брат её матери" 1 =
      Except.error lineClauseError :=
  claim_C7_grand_requires_line_clause.2 "его дед — старший брат её матери" 1
    "его" "дед" (by decide) (by decide) (by decide) (by decide)
    (Or.inl (by decide)) (by decide)

/-! ### Parse output carries no root identifiers (C5) -/

deriving instance DecidableEq for Except

/-- Output of parsing "его мать сестра его деда по материнской линии"
(both specs use the pronoun "его") with the id counter at 1. -/
def bothHePeople : List Person :=
  [⟨"1", "Он", Sex.male, none⟩, ⟨"2", "Его мать", Sex.female, none⟩,
    ⟨"3", "Его дед (по материнской линии)", Sex.male, none⟩,
    ⟨"4", "Общий прадед", Sex.male, none⟩,
    ⟨"5", "Общая прабабушка", Sex.female, none⟩]

def bothHeRels : List ParentEdge :=
  [⟨"2", "1"⟩, ⟨"3", "2"⟩, ⟨"4", "2"⟩, ⟨"4", "3"⟩, ⟨"5", "2"⟩, ⟨"5", "3"⟩]

/-- C5 counterexample: a successful parse whose output contains no
person named "Она" at all — so no "She" root identifier is part of (or
recoverable from) the result; the result value holds persons and edges
only. -/
theorem claim_C5_counterexample :
    parseAdvancedKinship "его мать сестра его деда по материнской линии" 1 =
      Except.ok (⟨bothHePeople, bothHeRels⟩, 6) ∧
    (bothHePeople.all (fun p => p.name != "Она")) = true := by
  refine ⟨by decide, by decide⟩

/-- Output of the canonical Scenario-4 phrase with the counter at 1. -/
def canonPeople : List Person :=
  [⟨"1", "Он", Sex.male, none⟩, ⟨"2", "Его мать", Sex.female, some "младшая"⟩,
    ⟨"3", "Она", Sex.female, none⟩, ⟨"4", "Её мать", Sex.female, none⟩,
    ⟨"5", "Её дед (по материнской линии)", Sex.male, none⟩,
    ⟨"6", "Общий прадед", Sex.male, none⟩,
    ⟨"7", "Общая прабабушка", Sex.female, none⟩]

def canonRels : List ParentEdge :=
  [⟨"2", "1"⟩, ⟨"4", "3"⟩, ⟨"5", "4"⟩, ⟨"6", "2"⟩, ⟨"6", "5"⟩, ⟨"7", "2"⟩,
    ⟨"7", "5"⟩]

/-- C5 (amended): a successful parse returns the synthesized persons
and edges only; the canonical root nodes exist among the persons for
each pronoun actually used, and callers recover their identifiers by
the names "Он"/"Она" — as on the canonical phrase, where the two roots
are the persons with ids "1" and "3". -/
theorem claim_C5_parse_output_roots :
    parseAdvancedKinship "его мать младшая сестра ее деда по материнской линии"
        1 = Except.ok (⟨canonPeople, canonRels⟩, 8) ∧
    (canonPeople.filter (fun p => p.name == "Он")).map (fun p => p.id) =
      ["1"] ∧
    (canonPeople.filter (fun p => p.name == "Она")).map (fun p => p.id) =
      ["3"] := by
  refine ⟨by decide, by decide, by decide⟩

/-! ### Injectivity of generated ids (C9 groundwork) -/

/-- Canonical digit list of `n`, most significant digit first. -/
def canonDigits (n : Nat) : List Char :=
  if n = 0 then [digitChar 0] else ((Nat.digits 10 n).map digitChar).reverse

theorem natStrGo_eq :
    ∀ (fuel n : Nat), 0 < fuel → n < 10 ^ fuel →
      natStrGo fuel n = canonDigits n := by
  intro fuel
  induction fuel with
  | zero => intro n h; omega
  | succ f ih =>
    intro n _ hlt
    rw [natStrGo]
    by_cases hn : n < 10
    · rw [if_pos hn]
      unfold canonDigits
      by_cases h0 : n = 0
      · subst h0; rw [if_pos rfl]
      · rw [if_neg h0]
        rw [Nat.digits_def' (by omega : 1 < 10) (by omega : 0 < n)]
        rw [Nat.mod_eq_of_lt hn, Nat.div_eq_of_lt hn, Nat.digits_zero]
        rfl
    · rw [if_neg hn]
      have hf : 0 < f := by
        by_contra hf0
        push_neg at hf0
        interval_cases f
        simp at hlt
        omega
      have hdiv : n / 10 < 10 ^ f := by
        rw [Nat.div_lt_iff_lt_mul (by omega : 0 < 10)]
        calc n < 10 ^ (f + 1) := hlt
          _ = 10 ^ f * 10 := by rw [pow_succ]
      rw [ih (n / 10) hf hdiv]
      unfold canonDigits
      have hdne : ¬ n / 10 = 0 := by
        intro hc
        have := Nat.div_eq_of_lt (by omega : n < 10)
        omega
      rw [if_neg hdne, if_neg (by omega : ¬ n = 0)]
      rw [Nat.digits_def' (by omega : 1 < 10) (by omega : 0 < n)]
      rw [List.map_cons, List.reverse_cons]

theorem natStr_data (n : Nat) : (natStr n).data = canonDigits n := by
  unfold natStr
  show natStrGo (n + 1) n = canonDigits n
  refine natStrGo_eq (n + 1) n (Nat.succ_pos n) ?_
  calc n < 10 ^ n := Nat.lt_pow_self (by omega) n
    _ ≤ 10 ^ (n + 1) := Nat.pow_le_pow_right (by omega) (Nat.le_succ n)

theorem digitChar_inj {a b : Nat} (ha : a < 10) (hb : b < 10)
    (h : digitChar a = digitChar b) : a = b := by
  have key : ∀ x y : Fin 10, digitChar x.val = digitChar y.val → x = y := by decide
  exact congrArg Fin.val (key ⟨a, ha⟩ ⟨b, hb⟩ h)

theorem map_digitChar_inj :
    ∀ (l1 l2 : List Nat), (∀ d ∈ l1, d < 10) → (∀ d ∈ l2, d < 10) →
      l1.map digitChar = l2.map digitChar → l1 = l2 := by
  intro l1
  induction l1 with
  | nil => intro l2 _ _ h; cases l2 with
    | nil => rfl
    | cons b t => cases h
  | cons a t1 ih =>
    intro l2 h1 h2 h
    cases l2 with
    | nil => cases h
    | cons b t2 =>
      rw [List.map_cons, List.map_cons] at h
      injection h with hh ht
      rw [digitChar_inj (h1 a (List.mem_cons_self _ _))
        (h2 b (List.mem_cons_self _ _)) hh,
        ih t2 (fun d hd => h1 d (List.mem_cons_of_mem _ hd))
          (fun d hd => h2 d (List.mem_cons_of_mem _ hd)) ht]

theorem canonDigits_inj {m n : Nat} (h : canonDigits m = canonDigits n) :
    m = n := by
  unfold canonDigits at h
  by_cases hm : m = 0 <;> by_cases hn : n = 0
  · omega
  · rw [if_pos hm, if_neg hn] at h
    have h2 : List.map digitChar (Nat.digits 10 n) = [digitChar 0] := by
      have h1 := congrArg List.reverse h
      rw [List.reverse_reverse] at h1
      simpa using h1.symm
    have h3 : Nat.digits 10 n = [0] :=
      map_digitChar_inj _ [0]
        (fun d hd => Nat.digits_lt_base (by omega) hd)
        (by intro d hd; simp at hd; omega) (by rw [h2]; rfl)
    have h4 := Nat.ofDigits_digits 10 n
    rw [h3] at h4
    simp [Nat.ofDigits] at h4
    omega
  · rw [if_neg hm, if_pos hn] at h
    have h2 : List.map digitChar (Nat.digits 10 m) = [digitChar 0] := by
      have h1 := congrArg List.reverse h
      rw [List.reverse_reverse] at h1
      simpa using h1
    have h3 : Nat.digits 10 m = [0] :=
      map_digitChar_inj _ [0]
        (fun d hd => Nat.digits_lt_base (by omega) hd)
        (by intro d hd; simp at hd; omega) (by rw [h2]; rfl)
    have h4 := Nat.ofDigits_digits 10 m
    rw [h3] at h4
    simp [Nat.ofDigits] at h4
    omega
  · rw [if_neg hm, if_neg hn] at h
    have h2 := congrArg List.reverse h
    rw [List.reverse_reverse, List.reverse_reverse] at h2
    have h3 := map_digitChar_inj (Nat.digits 10 m) (Nat.digits 10 n)
      (fun d hd => Nat.digits_lt_base (by omega) hd)
      (fun d hd => Nat.digits_lt_base (by omega) hd) h2
    calc m = Nat.ofDigits 10 (Nat.digits 10 m) := (Nat.ofDigits_digits 10 m).symm
      _ = Nat.ofDigits 10 (Nat.digits 10 n) := by rw [h3]
      _ = n := Nat.ofDigits_digits 10 n

theorem natStr_inj {m n : Nat} (h : natStr m = natStr n) : m = n := by
  apply canonDigits_inj
  rw [← natStr_data, ← natStr_data, h]

/-! ### Synthesizer state invariants (C9) -/

structure SynthInv (st : SynthState) : Prop where
  ids : ∀ p ∈ st.people, ∃ m, m < st.counter ∧ p.id = natStr m
  nodup_ids : (st.people.map (fun p => p.id)).Nodup
  byKey_sound : ∀ k pid, jget st.byKey k = some pid →
    ∃ p ∈ st.people, k = "name:" ++ p.name ∧ pid = p.id
  byKey_total : ∀ p ∈ st.people, jget st.byKey ("name:" ++ p.name) = some p.id
  rels_nodup : st.rels.Nodup
  rels_noloop : ∀ e ∈ st.rels, e.parentId ≠ e.childId

def HasPerson (st : SynthState) (pid nm : String) : Prop :=
  ∃ p ∈ st.people, p.id = pid ∧ p.name = nm

theorem name_key_inj {a b : String} (h : "name:" ++ a = "name:" ++ b) :
    a = b := by
  have h2 := congrArg String.data h
  rw [String.data_append, String.data_append] at h2
  exact String.ext (List.append_cancel_left h2)

theorem SynthInv.id_inj {st : SynthState} (inv : SynthInv st) {p q : Person}
    (hp : p ∈ st.people) (hq : q ∈ st.people) (h : p.id = q.id) : p = q :=
  List.inj_on_of_nodup_map inv.nodup_ids hp hq h

theorem ids_ne_of_names_ne {st : SynthState} (inv : SynthInv st)
    {pid1 n1 pid2 n2 : String} (h1 : HasPerson st pid1 n1)
    (h2 : HasPerson st pid2 n2) (hn : n1 ≠ n2) : pid1 ≠ pid2 := by
  obtain ⟨p1, hp1, hid1, hn1⟩ := h1
  obtain ⟨p2, hp2, hid2, hn2⟩ := h2
  intro he
  have : p1 = p2 := inv.id_inj hp1 hp2 (by rw [hid1, hid2, he])
  rw [← hn1, ← hn2, this] at hn
  exact hn rfl

theorem addSynth_spec {st : SynthState} (inv : SynthInv st) (nm : String)
    (sex : Sex) (note : Option String) :
    SynthInv (addSynth st nm sex note).1 ∧
    HasPerson (addSynth st nm sex note).1 (addSynth st nm sex note).2 nm ∧
    (addSynth st nm sex note).1.rels = st.rels ∧
    (∀ p ∈ st.people, p ∈ (addSynth st nm sex note).1.people) := by
  unfold addSynth HasPerson
  dsimp only
  cases hk : jget st.byKey ("name:" ++ nm) with
  | some pid =>
    dsimp only
    refine ⟨inv, ?_, rfl, fun p hp => hp⟩
    obtain ⟨p, hp, hkey, hpid⟩ := inv.byKey_sound _ _ hk
    exact ⟨p, hp, hpid.symm, (name_key_inj hkey).symm⟩
  | none =>
    dsimp only
    constructor
    · constructor
      · intro p hp
        rcases List.mem_append.mp hp with h | h
        · obtain ⟨m, hm, hid⟩ := inv.ids p h
          exact ⟨m, by dsimp only; omega, hid⟩
        · simp at h
          subst h
          exact ⟨st.counter, by dsimp only; omega, rfl⟩
      · rw [List.map_append]
        rw [List.nodup_append]
        refine ⟨inv.nodup_ids, by simp, ?_⟩
        intro x hx hx2
        simp at hx2
        obtain ⟨p, hp, hid⟩ := List.mem_map.mp hx
        obtain ⟨m, hm, hmid⟩ := inv.ids p hp
        rw [← hid, hmid] at hx2
        have := natStr_inj hx2
        omega
      · intro k pid hget
        by_cases hkk : k = "name:" ++ nm
        · subst hkk
          rw [jget_jset_self] at hget
          cases hget
          exact ⟨⟨natStr st.counter, nm, sex, note⟩,
            List.mem_append.mpr (Or.inr (List.mem_singleton.mpr rfl)), rfl, rfl⟩
        · rw [jget_jset_ne _ _ _ _ hkk] at hget
          obtain ⟨p, hp, h1, h2⟩ := inv.byKey_sound _ _ hget
          exact ⟨p, List.mem_append.mpr (Or.inl hp), h1, h2⟩
      · intro p hp
        rcases List.mem_append.mp hp with h | h
        · have hkne : "name:" ++ p.name ≠ "name:" ++ nm := by
            intro hc
            have := inv.byKey_total p h
            rw [hc, hk] at this
            cases this
          rw [jget_jset_ne _ _ _ _ hkne]
          exact inv.byKey_total p h
        · simp at h
          subst h
          exact jget_jset_self _ _ _
      · exact inv.rels_nodup
      · exact inv.rels_noloop
    · exact ⟨⟨⟨natStr st.counter, nm, sex, note⟩,
        List.mem_append.mpr (Or.inr (List.mem_singleton.mpr rfl)), rfl, rfl⟩,
        rfl, fun p hp => List.mem_append.mpr (Or.inl hp)⟩

theorem addSynth_hasPerson {st : SynthState} {pid nm : String}
    (h : HasPerson st pid nm) (nm2 : String) (sex : Sex)
    (note : Option String) (inv : SynthInv st) :
    HasPerson (addSynth st nm2 sex note).1 pid nm := by
  obtain ⟨p, hp, h1, h2⟩ := h
  exact ⟨p, (addSynth_spec inv nm2 sex note).2.2.2 p hp, h1, h2⟩

theorem linkSynth_spec {st : SynthState} (inv : SynthInv st) {pid cid : String}
    (hne : pid ≠ cid) :
    SynthInv (linkSynth st pid cid) ∧
    (linkSynth st pid cid).people = st.people := by
  unfold linkSynth
  by_cases hany : st.rels.any
      (fun r => r.parentId == pid && r.childId == cid) = true
  · rw [if_pos hany]
    exact ⟨inv, rfl⟩
  · rw [if_neg hany]
    refine ⟨⟨inv.ids, inv.nodup_ids, inv.byKey_sound, inv.byKey_total, ?_, ?_⟩, rfl⟩
    · rw [List.nodup_append]
      refine ⟨inv.rels_nodup, by simp, ?_⟩
      intro e he he2
      simp at he2
      subst he2
      apply hany
      rw [List.any_eq_true]
      exact ⟨⟨pid, cid⟩, he, by simp⟩
    · intro e he
      rcases List.mem_append.mp he with h | h
      · exact inv.rels_noloop e h
      · simp at h
        subst h
        exact hne

theorem linkSynth_hasPerson {st : SynthState} {pid nm : String}
    (p2 c2 : String) (h : HasPerson st pid nm) :
    HasPerson (linkSynth st p2 c2) pid nm := by
  unfold linkSynth at *
  by_cases hany : st.rels.any
      (fun r => r.parentId == p2 && r.childId == c2) = true
  · rw [if_pos hany]; exact h
  · rw [if_neg hany]; exact h

theorem setNote_people_shape (people : List Person) (pid rank : String) :
    ∀ q ∈ setNote people pid rank,
      ∃ p ∈ people, q.id = p.id ∧ q.name = p.name := by
  intro q hq
  unfold setNote at hq
  obtain ⟨p, hp, hqp⟩ := List.mem_map.mp hq
  by_cases hid : p.id = pid
  · rw [if_pos hid] at hqp
    exact ⟨p, hp, by rw [← hqp], by rw [← hqp]⟩
  · rw [if_neg hid] at hqp
    exact ⟨p, hp, by rw [← hqp], by rw [← hqp]⟩

theorem setNote_ids (people : List Person) (pid rank : String) :
    (setNote people pid rank).map (fun p => p.id) =
      people.map (fun p => p.id) := by
  unfold setNote
  rw [List.map_map]
  apply List.map_congr_left
  intro p _
  by_cases hid : p.id = pid
  · simp [hid]
  · simp [hid]

theorem setNote_mem (people : List Person) (pid rank : String) :
    ∀ p ∈ people, ∃ q ∈ setNote people pid rank,
      q.id = p.id ∧ q.name = p.name := by
  intro p hp
  unfold setNote
  by_cases hid : p.id = pid
  · exact ⟨{ p with note := some (match p.note with
      | some n => if n = "" then rank else n ++ "; " ++ rank
      | none => rank) },
      List.mem_map.mpr ⟨p, hp, by rw [if_pos hid]⟩, rfl, rfl⟩
  · exact ⟨p, List.mem_map.mpr ⟨p, hp, by rw [if_neg hid]⟩, rfl, rfl⟩

theorem setNote_inv {st : SynthState} (inv : SynthInv st) (pid rank : String) :
    SynthInv ⟨setNote st.people pid rank, st.rels, st.byKey, st.counter⟩ := by
  constructor
  · intro p hp
    obtain ⟨q, hq, hid, _⟩ := setNote_people_shape st.people pid rank p hp
    obtain ⟨m, hm, hqid⟩ := inv.ids q hq
    exact ⟨m, hm, by rw [hid, hqid]⟩
  · show ((setNote st.people pid rank).map (fun p => p.id)).Nodup
    rw [setNote_ids]
    exact inv.nodup_ids
  · intro k pid2 hget
    obtain ⟨p, hp, h1, h2⟩ := inv.byKey_sound _ _ hget
    obtain ⟨q, hq, hid, hnm⟩ := setNote_mem st.people pid rank p hp
    exact ⟨q, hq, by rw [h1, hnm], by rw [h2, hid]⟩
  · intro p hp
    obtain ⟨q, hq, hid, hnm⟩ := setNote_people_shape st.people pid rank p hp
    rw [hnm, hid]
    exact inv.byKey_total q hq
  · exact inv.rels_nodup
  · exact inv.rels_noloop

theorem setNote_hasPerson {st : SynthState} {pid nm : String}
    (h : HasPerson st pid nm) (pid2 rank : String) :
    HasPerson ⟨setNote st.people pid2 rank, st.rels, st.byKey, st.counter⟩
      pid nm := by
  obtain ⟨p, hp, h1, h2⟩ := h
  obtain ⟨q, hq, hid, hnm⟩ := setNote_mem st.people pid2 rank p hp
  exact ⟨q, hq, by rw [hid, h1], by rw [hnm, h2]⟩

/-- Display name of the node at position `p` of a pronoun chain. -/
def chainName (base : Base) : List Step → String
  | [] => if base = Base.he then "Он" else "Она"
  | p => (labelForPath base p).label

/-- Along the chain, each freshly created label differs from its child's name. -/
def chainOK (base : Base) : List Step → List Step → Prop
  | _, [] => True
  | done, s :: rest =>
    (labelForPath base (done ++ [s])).label ≠ chainName base done ∧
      chainOK base (done ++ [s]) rest

theorem chainName_ne_nil (base : Base) {l : List Step} (h : l ≠ []) :
    chainName base l = (labelForPath base l).label := by
  cases l with
  | nil => exact absurd rfl h
  | cons a t => rfl

theorem ensureChainGo_spec (base : Base) :
    ∀ (rest done : List Step) (st : SynthState) (child : String),
      SynthInv st → HasPerson st child (chainName base done) →
      chainOK base done rest →
      SynthInv (ensureChainGo base done rest st child).1 ∧
      HasPerson (ensureChainGo base done rest st child).1
        (ensureChainGo base done rest st child).2
        (chainName base (done ++ rest)) ∧
      (∀ pid nm, HasPerson st pid nm →
        HasPerson (ensureChainGo base done rest st child).1 pid nm) := by
  intro rest
  induction rest with
  | nil =>
    intro done st child inv hchild _
    rw [List.append_nil]
    exact ⟨inv, hchild, fun pid nm h => h⟩
  | cons s rest ih =>
    intro done st child inv hchild hok
    obtain ⟨hne, hok2⟩ := hok
    have hadd := addSynth_spec inv
      (labelForPath base (done ++ [s])).label
      (labelForPath base (done ++ [s])).sex none
    obtain ⟨inv1, hnew, _, _⟩ := hadd
    have hchild1 := addSynth_hasPerson hchild
      (labelForPath base (done ++ [s])).label
      (labelForPath base (done ++ [s])).sex none inv
    have hneq : (addSynth st (labelForPath base (done ++ [s])).label
        (labelForPath base (done ++ [s])).sex none).2 ≠ child :=
      ids_ne_of_names_ne inv1 hnew hchild1 hne
    obtain ⟨inv2, hpeq⟩ := linkSynth_spec inv1 hneq
    have hnew2 := linkSynth_hasPerson
      (addSynth st (labelForPath base (done ++ [s])).label
        (labelForPath base (done ++ [s])).sex none).2 child hnew
    have hnew3 : HasPerson
        (linkSynth (addSynth st (labelForPath base (done ++ [s])).label
          (labelForPath base (done ++ [s])).sex none).1
          (addSynth st (labelForPath base (done ++ [s])).label
          (labelForPath base (done ++ [s])).sex none).2 child)
        (addSynth st (labelForPath base (done ++ [s])).label
          (labelForPath base (done ++ [s])).sex none).2
        (chainName base (done ++ [s])) := by
      rw [chainName_ne_nil base (show done ++ [s] ≠ [] by simp)]
      exact hnew2
    have hrec := ih (done ++ [s]) _ _ inv2 hnew3 hok2
    have hlist : (done ++ [s]) ++ rest = done ++ s :: rest := by simp
    rw [hlist] at hrec
    refine ⟨hrec.1, hrec.2.1, ?_⟩
    intro pid nm h
    exact hrec.2.2 pid nm (linkSynth_hasPerson _ _ (addSynth_hasPerson h
      (labelForPath base (done ++ [s])).label
      (labelForPath base (done ++ [s])).sex none inv))

theorem ensureChain_spec (base : Base) (steps : List Step) (st : SynthState)
    (inv : SynthInv st) (hok : chainOK base [] steps) :
    SynthInv (ensureChain base steps st).1 ∧
    HasPerson (ensureChain base steps st).1 (ensureChain base steps st).2
      (chainName base steps) ∧
    (∀ pid nm, HasPerson st pid nm →
      HasPerson (ensureChain base steps st).1 pid nm) := by
  have hadd := addSynth_spec inv (if base = Base.he then "Он" else "Она")
    (if base = Base.he then Sex.male else Sex.female) none
  obtain ⟨inv1, hroot, _, hmono⟩ := hadd
  have hroot2 : HasPerson (addSynth st (if base = Base.he then "Он" else "Она")
      (if base = Base.he then Sex.male else Sex.female) none).1
      (addSynth st (if base = Base.he then "Он" else "Она")
      (if base = Base.he then Sex.male else Sex.female) none).2
      (chainName base []) := hroot
  have hgo := ensureChainGo_spec base steps [] _ _ inv1 hroot2 hok
  rw [List.nil_append] at hgo
  refine ⟨hgo.1, hgo.2.1, ?_⟩
  intro pid nm h
  exact hgo.2.2 pid nm (addSynth_hasPerson h _ _ _ inv)

/-- The parser only ever produces chains of one or two mother/father steps. -/
theorem parseRelativeSpec_steps {tokens : List String} {i0 : Nat}
    {spec : RelSpec} (h : parseRelativeSpec tokens i0 = Except.ok spec) :
    spec.steps = [Step.mother] ∨ spec.steps = [Step.father] ∨
    spec.steps = [Step.mother, Step.mother] ∨
    spec.steps = [Step.mother, Step.father] ∨
    spec.steps = [Step.father, Step.mother] ∨
    spec.steps = [Step.father, Step.father] := by
  unfold parseRelativeSpec at h
  cases hg0 : tokens.get? i0 with
  | none => rw [hg0] at h; cases h
  | some pron =>
    rw [hg0] at h
    dsimp only at h
    by_cases hpron : pron ∈ PRONOUN
    · rw [if_pos hpron] at h
      cases hg1 : tokens.get? (i0 + 1) with
      | none => rw [hg1] at h; cases h
      | some w =>
        rw [hg1] at h
        dsimp only at h
        by_cases hmw : w ∈ motherWords
        · rw [if_pos hmw] at h
          injection h with h
          rw [← h]
          exact Or.inl rfl
        · rw [if_neg hmw] at h
          by_cases hfw : w ∈ fatherWords
          · rw [if_pos hfw] at h
            injection h with h
            rw [← h]
            exact Or.inr (Or.inl rfl)
          · rw [if_neg hfw] at h
            by_cases hgw : (isGrandfatherWord w || isGrandmotherWord w) = true
            · rw [if_pos hgw] at h
              cases hside : (takeLine tokens (i0 + 2)).side with
              | none => rw [hside] at h; cases h
              | some side =>
                rw [hside] at h
                dsimp only at h
                injection h with h
                rw [← h]
                cases side with
                | maternal =>
                  cases hgf : isGrandfatherWord w with
                  | true =>
                    simp only [hgf]
                    exact Or.inr (Or.inr (Or.inr (Or.inl rfl)))
                  | false =>
                    simp only [hgf]
                    exact Or.inr (Or.inr (Or.inl rfl))
                | paternal =>
                  cases hgf : isGrandfatherWord w with
                  | true =>
                    simp only [hgf]
                    exact Or.inr (Or.inr (Or.inr (Or.inr (Or.inr rfl))))
                  | false =>
                    simp only [hgf]
                    exact Or.inr (Or.inr (Or.inr (Or.inr (Or.inl rfl))))
            · rw [if_neg hgw] at h
              cases h
    · rw [if_neg hpron] at h
      cases h

def Steps6 (l : List Step) : Prop :=
  l = [Step.mother] ∨ l = [Step.father] ∨
  l = [Step.mother, Step.mother] ∨ l = [Step.mother, Step.father] ∨
  l = [Step.father, Step.mother] ∨ l = [Step.father, Step.father]

theorem chainOK_of_steps (base : Base) {steps : List Step}
    (h : Steps6 steps) : chainOK base [] steps := by
  rcases h with h | h | h | h | h | h <;> subst h <;> cases base <;>
    first
    | exact ⟨by decide, trivial⟩
    | exact ⟨by decide, by decide, trivial⟩

theorem chainName_ne_gf (base : Base) {steps : List Step} (h : Steps6 steps) :
    "Общий прадед" ≠ chainName base steps := by
  rcases h with h | h | h | h | h | h <;> subst h <;> cases base <;> decide

theorem chainName_ne_gm (base : Base) {steps : List Step} (h : Steps6 steps) :
    "Общая прабабушка" ≠ chainName base steps := by
  rcases h with h | h | h | h | h | h <;> subst h <;> cases base <;> decide

theorem synthInv_init (c : Nat) : SynthInv ⟨[], [], [], c⟩ := by
  constructor
  · intro p hp; cases hp
  · exact List.nodup_nil
  · intro k pid hget; cases hget
  · intro p hp; cases hp
  · exact List.nodup_nil
  · intro e he; cases he

theorem buildGraphFromSibling_inv (leftSpec rightSpec : RelSpec)
    (conn : Connector) (counter : Nat)
    (hl : Steps6 leftSpec.steps) (hr : Steps6 rightSpec.steps) :
    (buildGraphFromSibling leftSpec conn rightSpec counter).1.rels.Nodup ∧
    ∀ e ∈ (buildGraphFromSibling leftSpec conn rightSpec counter).1.rels,
      e.parentId ≠ e.childId := by
  unfold buildGraphFromSibling
  dsimp only
  obtain ⟨inv1, hleft1, _⟩ := ensureChain_spec leftSpec.base leftSpec.steps
    ⟨[], [], [], counter⟩ (synthInv_init counter) (chainOK_of_steps _ hl)
  cases hrank : conn.rank with
  | some rank =>
    dsimp only
    have inv2 := setNote_inv inv1
      (ensureChain leftSpec.base leftSpec.steps ⟨[], [], [], counter⟩).2 rank
    have hleft2 := setNote_hasPerson hleft1
      (ensureChain leftSpec.base leftSpec.steps ⟨[], [], [], counter⟩).2 rank
    obtain ⟨inv3, hright3, hpres3⟩ := ensureChain_spec rightSpec.base
      rightSpec.steps _ inv2 (chainOK_of_steps _ hr)
    have hleft3 := hpres3 _ _ hleft2
    obtain ⟨inv4, hgf4, _, _⟩ := addSynth_spec inv3 "Общий прадед" Sex.male none
    have hleft4 := addSynth_hasPerson hleft3 "Общий прадед" Sex.male none inv3
    have hright4 := addSynth_hasPerson hright3 "Общий прадед" Sex.male none inv3
    obtain ⟨inv5, hgm5, _, _⟩ := addSynth_spec inv4 "Общая прабабушка"
      Sex.female none
    have hgf5 := addSynth_hasPerson hgf4 "Общая прабабушка" Sex.female none inv4
    have hleft5 := addSynth_hasPerson hleft4 "Общая прабабушка" Sex.female none
      inv4
    have hright5 := addSynth_hasPerson hright4 "Общая прабабушка" Sex.female
      none inv4
    have hgl := ids_ne_of_names_ne inv5 hgf5 hleft5 (chainName_ne_gf _ hl)
    have hgr := ids_ne_of_names_ne inv5 hgf5 hright5 (chainName_ne_gf _ hr)
    have hml := ids_ne_of_names_ne inv5 hgm5 hleft5 (chainName_ne_gm _ hl)
    have hmr := ids_ne_of_names_ne inv5 hgm5 hright5 (chainName_ne_gm _ hr)
    have inv6 := (linkSynth_spec inv5 hgl).1
    have inv7 := (linkSynth_spec inv6 hgr).1
    have inv8 := (linkSynth_spec inv7 hml).1
    have inv9 := (linkSynth_spec inv8 hmr).1
    exact ⟨inv9.rels_nodup, inv9.rels_noloop⟩
  | none =>
    dsimp only
    obtain ⟨inv3, hright3, hpres3⟩ := ensureChain_spec rightSpec.base
      rightSpec.steps _ inv1 (chainOK_of_steps _ hr)
    have hleft3 := hpres3 _ _ hleft1
    obtain ⟨inv4, hgf4, _, _⟩ := addSynth_spec inv3 "Общий прадед" Sex.male none
    have hleft4 := addSynth_hasPerson hleft3 "Общий прадед" Sex.male none inv3
    have hright4 := addSynth_hasPerson hright3 "Общий прадед" Sex.male none inv3
    obtain ⟨inv5, hgm5, _, _⟩ := addSynth_spec inv4 "Общая прабабушка"
      Sex.female none
    have hgf5 := addSynth_hasPerson hgf4 "Общая прабабушка" Sex.female none inv4
    have hleft5 := addSynth_hasPerson hleft4 "Общая прабабушка" Sex.female none
      inv4
    have hright5 := addSynth_hasPerson hright4 "Общая прабабушка" Sex.female
      none inv4
    have hgl := ids_ne_of_names_ne inv5 hgf5 hleft5 (chainName_ne_gf _ hl)
    have hgr := ids_ne_of_names_ne inv5 hgf5 hright5 (chainName_ne_gf _ hr)
    have hml := ids_ne_of_names_ne inv5 hgm5 hleft5 (chainName_ne_gm _ hl)
    have hmr := ids_ne_of_names_ne inv5 hgm5 hright5 (chainName_ne_gm _ hr)
    have inv6 := (linkSynth_spec inv5 hgl).1
    have inv7 := (linkSynth_spec inv6 hgr).1
    have inv8 := (linkSynth_spec inv7 hml).1
    have inv9 := (linkSynth_spec inv8 hmr).1
    exact ⟨inv9.rels_nodup, inv9.rels_noloop⟩

theorem parseAdvancedKinship_rels {s : String} {c : Nat} {out : ParseOutput}
    {c' : Nat} (h : parseAdvancedKinship s c = Except.ok (out, c')) :
    out.rels.Nodup ∧ ∀ e ∈ out.rels, e.parentId ≠ e.childId := by
  unfold parseAdvancedKinship at h
  dsimp only at h
  by_cases hn : normalizeText s = ""
  · rw [if_pos hn] at h; cases h
  · rw [if_neg hn] at h
    cases hleft : parseRelativeSpec (tokensOfNorm (normalizeText s)) 0 with
    | error e => rw [hleft] at h; cases h
    | ok left =>
      rw [hleft] at h
      dsimp only at h
      cases hconn : parseSiblingConnector (tokensOfNorm (normalizeText s))
          left.next with
      | error e => rw [hconn] at h; cases h
      | ok conn =>
        rw [hconn] at h
        dsimp only at h
        cases hright : parseRelativeSpec (tokensOfNorm (normalizeText s))
            conn.next with
        | error e => rw [hright] at h; cases h
        | ok right =>
          rw [hright] at h
          dsimp only at h
          injection h with h
          have heq : (buildGraphFromSibling left conn right c).1 = out := by
            rw [h]
          rw [← heq]
          exact buildGraphFromSibling_inv left right conn c
            (parseRelativeSpec_steps hleft) (parseRelativeSpec_steps hright)

/-- C9: both edge-insertion paths keep the edge invariants. The direct
add-relation operation (`addParentChild`) rejects self-loops, leaves the
list unchanged when the pair is already present, and preserves
distinctness and loop-freedom of the edge list; the synthesizer
(`parseAdvancedKinship`, via `buildGraphFromSibling`) only ever returns
an edge list without duplicates and without self-loops. -/
theorem claim_C9_edge_invariants :
    (∀ (parentSel childSel : String) (rels : List ParentEdge),
      (parentSel = childSel → addParentChild parentSel childSel rels = rels) ∧
      ((⟨parentSel, childSel⟩ : ParentEdge) ∈ rels →
        addParentChild parentSel childSel rels = rels) ∧
      (rels.Nodup → (∀ e ∈ rels, e.parentId ≠ e.childId) →
        (addParentChild parentSel childSel rels).Nodup ∧
        ∀ e ∈ addParentChild parentSel childSel rels,
          e.parentId ≠ e.childId)) ∧
    (∀ (s : String) (c : Nat) (out : ParseOutput) (c2 : Nat),
      parseAdvancedKinship s c = Except.ok (out, c2) →
      out.rels.Nodup ∧ ∀ e ∈ out.rels, e.parentId ≠ e.childId) := by
  constructor
  · intro parentSel childSel rels
    refine ⟨?_, ?_, ?_⟩
    · intro heq
      unfold addParentChild
      rw [if_pos (Or.inr (Or.inr heq))]
    · intro hmem
      unfold addParentChild
      by_cases hg : parentSel = "" ∨ childSel = "" ∨ parentSel = childSel
      · rw [if_pos hg]
      · rw [if_neg hg]
        rw [if_pos (List.any_eq_true.mpr
          ⟨⟨parentSel, childSel⟩, hmem, by simp⟩)]
    · intro hnd hloop
      unfold addParentChild
      by_cases hg : parentSel = "" ∨ childSel = "" ∨ parentSel = childSel
      · rw [if_pos hg]
        exact ⟨hnd, hloop⟩
      · rw [if_neg hg]
        by_cases hany : rels.any
            (fun r => r.parentId == parentSel && r.childId == childSel) = true
        · rw [if_pos hany]
          exact ⟨hnd, hloop⟩
        · rw [if_neg hany]
          constructor
          · rw [List.nodup_append]
            refine ⟨hnd, by simp, ?_⟩
            intro e he he2
            simp at he2
            subst he2
            exact hany (List.any_eq_true.mpr ⟨⟨parentSel, childSel⟩, he,
              by simp⟩)
          · intro e he
            rcases List.mem_append.mp he with h | h
            · exact hloop e h
            · simp at h
              subst h
              exact fun hc => hg (Or.inr (Or.inr hc))
  · intro s c out c2 h
    exact parseAdvancedKinship_rels h

theorem claim_C9_witness :
    addParentChild "x" "x" [⟨"a", "b"⟩] = [⟨"a", "b"⟩] ∧
    addParentChild "p" "c" [⟨"p", "c"⟩] = [⟨"p", "c"⟩] ∧
    (addParentChild "p" "c" [⟨"a", "b"⟩]).Nodup ∧
    bothHeRels.Nodup :=
  ⟨(claim_C9_edge_invariants.1 "x" "x" [⟨"a", "b"⟩]).1 rfl,
    (claim_C9_edge_invariants.1 "p" "c" [⟨"p", "c"⟩]).2.1 (by decide),
    ((claim_C9_edge_invariants.1 "p" "c" [⟨"a", "b"⟩]).2.2 (by decide)
      (by decide)).1,
    (claim_C9_edge_invariants.2 "его мать сестра его деда по материнской линии"
      1 ⟨bothHePeople, bothHeRels⟩ 6 (by decide)).1⟩

/-! ### Reciprocity of the classifier (C1) -/

/-- A pair of distances realised by some common ancestor key. -/
def CommonPair (A B : JsMap Nat) (p : Nat × Nat) : Prop :=
  ∃ k, jget A k = some p.1 ∧ jget B k = some p.2

/-- The resolver's lexicographic (sum, then max) order on distance pairs. -/
def PairLE (p q : Nat × Nat) : Prop :=
  p.1 + p.2 < q.1 + q.2 ∨
    (p.1 + p.2 = q.1 + q.2 ∧ max p.1 p.2 ≤ max q.1 q.2)

/-- An optimal common-ancestor distance profile. -/
def OptPair (A B : JsMap Nat) (p : Nat × Nat) : Prop :=
  CommonPair A B p ∧ ∀ q, CommonPair A B q → PairLE p q

theorem commonPair_swap {A B : JsMap Nat} {p : Nat × Nat}
    (h : CommonPair A B p) : CommonPair B A (p.2, p.1) := by
  obtain ⟨k, h1, h2⟩ := h
  exact ⟨k, h2, h1⟩

theorem optPair_swap {A B : JsMap Nat} {p : Nat × Nat}
    (h : OptPair A B p) : OptPair B A (p.2, p.1) := by
  refine ⟨commonPair_swap h.1, ?_⟩
  rintro ⟨q1, q2⟩ hq
  have := h.2 (q2, q1) (commonPair_swap hq)
  unfold PairLE at this ⊢
  dsimp only at this ⊢
  omega

/-- Under acyclicity the two directed ancestor tests exclude each other. -/
theorem isAncestorOf_excl {pf : JsMap (List String)}
    (hacy : Acyclic pf) {a b : String}
    (h : (1 : Int) ≤ isAncestorOf a b pf) :
    ¬ (1 : Int) ≤ isAncestorOf b a pf := by
  intro h2
  unfold isAncestorOf at h h2
  cases hga : jget (getAncestors b pf) a with
  | none => rw [hga] at h; dsimp only at h; omega
  | some u =>
    rw [hga] at h
    dsimp only at h
    cases hgb : jget (getAncestors a pf) b with
    | none => rw [hgb] at h2; dsimp only at h2; omega
    | some d =>
      rw [hgb] at h2
      dsimp only at h2
      have hu : 1 ≤ u := by omega
      have hcyc := pathUp_trans (getAncestors_sound hgb)
        (getAncestors_sound hga)
      have := hacy a (d + u) hcyc
      omega

/-- Counterexample graph for C1: two tie-optimal common-ancestor
profiles, (1,3) through one line and (3,1) through the other; the
fold's first-wins tie-breaking picks a different profile in each call
direction. -/
def c1People : List Person :=
  [⟨"a", "a", Sex.male, none⟩, ⟨"b", "b", Sex.male, none⟩,
    ⟨"pa", "pa", Sex.male, none⟩, ⟨"qa", "qa", Sex.male, none⟩,
    ⟨"ua", "ua", Sex.male, none⟩, ⟨"va", "va", Sex.male, none⟩,
    ⟨"xa", "xa", Sex.male, none⟩, ⟨"ya", "ya", Sex.male, none⟩]

def c1Edges : List ParentEdge :=
  [⟨"pa", "a"⟩, ⟨"va", "a"⟩, ⟨"pa", "xa"⟩, ⟨"xa", "ya"⟩, ⟨"ya", "b"⟩,
    ⟨"qa", "b"⟩, ⟨"qa", "ua"⟩, ⟨"ua", "va"⟩]

def c1Rank : String → Nat := fun s =>
  if s = "a" ∨ s = "b" then 0
  else if s = "ya" ∨ s = "va" then 1
  else if s = "xa" ∨ s = "ua" then 2
  else 3

/-- C1 counterexample: on this acyclic eight-person graph the two call
directions disagree — `relationLabel("a","b")` reports the forward role
"двоюродный дед" while `relationLabel("b","a")` reports the reverse
role "двоюродный внук", so title(a,b) ≠ reverseTitle(b,a). -/
theorem claim_C1_counterexample :
    Acyclic (buildIndexes c1People c1Edges).parentsOf ∧
    (relationLabel "a" "b" c1People c1Edges).title = "двоюродный дед" ∧
    (relationLabel "b" "a" c1People c1Edges).reverseTitle =
      "двоюродный внук" ∧
    ((relationLabel "a" "b" c1People c1Edges).title ==
      (relationLabel "b" "a" c1People c1Edges).reverseTitle) = false := by
  refine ⟨acyclic_of_rank _ c1Rank (by decide), by decide, by decide, by decide⟩

/-- C1 (amended): classification is reciprocal — `relationLabel(A,B).title
= relationLabel(B,A).reverseTitle` and vice versa — for every acyclic
collection on which the optimal (sum, then max) common-ancestor distance
profile of the two ids is unique; the counterexample shows the extra
uniqueness hypothesis is needed, because on ties the fold's first-wins
choice can pick a different profile in each direction. -/
theorem claim_C1_reciprocal_of_unique_profile
    (people : List Person) (edges : List ParentEdge) (a b : String)
    (hacy : Acyclic (buildIndexes people edges).parentsOf)
    (huniq : ∀ p q : Nat × Nat,
      OptPair (getAncestors a (buildIndexes people edges).parentsOf)
        (getAncestors b (buildIndexes people edges).parentsOf) p →
      OptPair (getAncestors a (buildIndexes people edges).parentsOf)
        (getAncestors b (buildIndexes people edges).parentsOf) q →
      p = q) :
    (relationLabel a b people edges).title =
      (relationLabel b a people edges).reverseTitle ∧
    (relationLabel a b people edges).reverseTitle =
      (relationLabel b a people edges).title := by
  unfold relationLabel
  dsimp only
  cases hA : jget (buildIndexes people edges).byId a with
  | none =>
    cases hB : jget (buildIndexes people edges).byId b with
    | none => exact ⟨by trivial, by trivial⟩
    | some Bp => exact ⟨by trivial, by trivial⟩
  | some Ap =>
    cases hB : jget (buildIndexes people edges).byId b with
    | none => exact ⟨by trivial, by trivial⟩
    | some Bp =>
      dsimp only
      by_cases hup :
          (1 : Int) ≤ isAncestorOf a b (buildIndexes people edges).parentsOf
      · have hdown := isAncestorOf_excl hacy hup
        simp only [if_pos hup, if_neg hdown]
        exact ⟨by trivial, by trivial⟩
      · by_cases hdown :
            (1 : Int) ≤ isAncestorOf b a (buildIndexes people edges).parentsOf
        · simp only [if_neg hup, if_pos hdown]
          exact ⟨by trivial, by trivial⟩
        · simp only [if_neg hup, if_neg hdown]
          cases h1 : findLCA a b (buildIndexes people edges).parentsOf with
          | none =>
            have h2 : findLCA b a (buildIndexes people edges).parentsOf =
                none := by
              rw [findLCA_none_iff] at h1 ⊢
              rintro k ⟨hkb, hka⟩
              exact h1 k ⟨hka, hkb⟩
            rw [h2]
            exact ⟨by trivial, by trivial⟩
          | some r1 =>
            cases h2 : findLCA b a (buildIndexes people edges).parentsOf with
            | none =>
              exfalso
              rw [findLCA_none_iff] at h2
              obtain ⟨hA1, hB1, _⟩ := findLCA_some_spec h1
              exact h2 r1.id ⟨jHasKey_of_jget_eq_some hB1,
                jHasKey_of_jget_eq_some hA1⟩
            | some r2 =>
              obtain ⟨id1, k, l⟩ := r1
              obtain ⟨id2, k2, l2⟩ := r2
              obtain ⟨hA1, hB1, hmin1⟩ := findLCA_some_spec h1
              obtain ⟨hB2, hA2, hmin2⟩ := findLCA_some_spec h2
              dsimp only at hA1 hB1 hmin1 hB2 hA2 hmin2 ⊢
              have hopt1 : OptPair
                  (getAncestors a (buildIndexes people edges).parentsOf)
                  (getAncestors b (buildIndexes people edges).parentsOf)
                  (k, l) := by
                refine ⟨⟨id1, hA1, hB1⟩, ?_⟩
                rintro ⟨q1, q2⟩ ⟨key, hqa, hqb⟩
                exact hmin1 key q1 q2 hqa hqb
              have hopt2 : OptPair
                  (getAncestors b (buildIndexes people edges).parentsOf)
                  (getAncestors a (buildIndexes people edges).parentsOf)
                  (k2, l2) := by
                refine ⟨⟨id2, hB2, hA2⟩, ?_⟩
                rintro ⟨q1, q2⟩ ⟨key, hqb, hqa⟩
                exact hmin2 key q1 q2 hqb hqa
              have heq := huniq (k, l) (l2, k2) hopt1 (optPair_swap hopt2)
              rw [Prod.mk.injEq] at heq
              obtain ⟨hk, hl⟩ := heq
              subst hk
              subst hl
              rw [Nat.min_comm l k, Nat.max_comm l k]
              by_cases hkl : k = 1 ∧ l = 1
              · simp only [if_pos hkl,
                  if_pos (show l = 1 ∧ k = 1 from ⟨hkl.2, hkl.1⟩)]
                exact ⟨by trivial, by trivial⟩
              · have hkl2 : ¬ (l = 1 ∧ k = 1) := fun hx => hkl ⟨hx.2, hx.1⟩
                simp only [if_neg hkl, if_neg hkl2]
                by_cases hmn : min k l = 1
                · simp only [if_pos hmn]
                  by_cases hdeg1 : max k l - 1 = 1
                  · simp only [if_pos hdeg1]
                    by_cases hk1 : k = 1
                    · have hl1 : ¬ l = 1 := fun hx => hkl ⟨hk1, hx⟩
                      simp only [if_pos hk1, if_neg hl1]
                      exact ⟨by trivial, by trivial⟩
                    · have hl1 : l = 1 := by omega
                      simp only [if_neg hk1, if_pos hl1]
                      exact ⟨by trivial, by trivial⟩
                  · simp only [if_neg hdeg1]
                    by_cases hk1 : k = 1
                    · have hl1 : ¬ l = 1 := fun hx => hkl ⟨hk1, hx⟩
                      simp only [if_pos hk1, if_neg hl1]
                      exact ⟨by trivial, by trivial⟩
                    · have hl1 : l = 1 := by omega
                      simp only [if_neg hk1, if_pos hl1]
                      exact ⟨by trivial, by trivial⟩
                · simp only [if_neg hmn]
                  by_cases hrem0 : max k l - min k l = 0
                  · simp only [if_pos hrem0]
                    exact ⟨by trivial, by trivial⟩
                  · simp only [if_neg hrem0]
                    by_cases hrem1 : max k l - min k l = 1
                    · simp only [if_pos hrem1]
                      by_cases hklt : k < l
                      · have hnlt : ¬ l < k := by omega
                        simp only [if_pos hklt, if_neg hnlt]
                        exact ⟨by trivial, by trivial⟩
                      · have hlk : l < k := by omega
                        simp only [if_neg hklt, if_pos hlk]
                        exact ⟨by trivial, by trivial⟩
                    · simp only [if_neg hrem1]
                      by_cases hklt : k < l
                      · have hnlt : ¬ l < k := by omega
                        simp only [if_pos hklt, if_neg hnlt]
                        exact ⟨by trivial, by trivial⟩
                      · have hlk : l < k := by omega
                        simp only [if_neg hklt, if_pos hlk]
                        exact ⟨by trivial, by trivial⟩

theorem claim_C1_witness :
    Acyclic (buildIndexes sibPeople sibEdges).parentsOf ∧
    (relationLabel "s" "d" sibPeople sibEdges).title =
      (relationLabel "d" "s" sibPeople sibEdges).reverseTitle ∧
    (relationLabel "s" "d" sibPeople sibEdges).reverseTitle =
      (relationLabel "d" "s" sibPeople sibEdges).title := by
  have hacy : Acyclic (buildIndexes sibPeople sibEdges).parentsOf :=
    acyclic_of_rank _ (fun s => if s = "f" ∨ s = "m" then 1 else 0) (by decide)
  have hSA : getAncestors "s" (buildIndexes sibPeople sibEdges).parentsOf =
      [("f", 1), ("m", 1)] := by decide
  have hSD : getAncestors "d" (buildIndexes sibPeople sibEdges).parentsOf =
      [("f", 1), ("m", 1)] := by decide
  have hcommon : ∀ p : Nat × Nat,
      CommonPair (getAncestors "s" (buildIndexes sibPeople sibEdges).parentsOf)
        (getAncestors "d" (buildIndexes sibPeople sibEdges).parentsOf) p →
      p = (1, 1) := by
    rintro ⟨p1, p2⟩ ⟨key, ha, hb⟩
    rw [hSA] at ha
    rw [hSD] at hb
    have hma := jget_eq_some_mem ha
    have hmb := jget_eq_some_mem hb
    simp at hma hmb
    rcases hma with ⟨hk, hp⟩ | ⟨hk, hp⟩ <;>
      rcases hmb with ⟨hk2, hp2⟩ | ⟨hk2, hp2⟩ <;> subst hp <;> subst hp2 <;> rfl
  have huniq : ∀ p q : Nat × Nat,
      OptPair (getAncestors "s" (buildIndexes sibPeople sibEdges).parentsOf)
        (getAncestors "d" (buildIndexes sibPeople sibEdges).parentsOf) p →
      OptPair (getAncestors "s" (buildIndexes sibPeople sibEdges).parentsOf)
        (getAncestors "d" (buildIndexes sibPeople sibEdges).parentsOf) q →
      p = q := by
    intro p q hp hq
    rw [hcommon p hp.1, hcommon q hq.1]
  exact ⟨hacy,
    (claim_C1_reciprocal_of_unique_profile sibPeople sibEdges "s" "d"
      hacy huniq).1,
    (claim_C1_reciprocal_of_unique_profile sibPeople sibEdges "s" "d"
      hacy huniq).2⟩
